import Mathlib

/-!
Shallow embedding of `lib/Target/X86/Utils/X86ShuffleDecode.cpp`: the x86
shuffle-mask decoders, which translate instruction immediates / byte tables
into generic vector shuffle masks (lists of signed lane indices).

Conventions of the embedding:
* `SmallVectorImpl<int> &ShuffleMask` out-parameters become an explicit
  `List Int` argument threaded through each decoder; `push_back x` is
  `m.push x = m ++ [x]`.
* C `unsigned` arithmetic is `Nat` arithmetic (`&`, `>>`, `%`, `/` become
  `&&&`, `>>>`, `%`, `/`); no operation here can overflow 32 bits on the
  inputs the source accepts, so no modular reduction is needed.
* C `for` loops walking an index range become folds over `List.range` /
  `List.range'`; loops of the form `for (l = 0; l != NumElts; l += Step)`
  are folds over `List.range (NumElts / Step)` with basis `l = q * Step`,
  which walks the same lane bases whenever `Step` divides `NumElts`
  (on any other shape the source loop would not terminate, i.e. the input
  is not accepted).
* `assert` failures become `Option.none` results (fail-fast).
-/

/-- `push_back` on the output container. -/
def List.push (m : List Int) (x : Int) : List Int := m ++ [x]

namespace X86ShuffleDecode

/-- Zero sentinel for shuffle masks. Modelled from the spec: the header
`X86ShuffleDecode.h` defining `SM_SentinelZero` is not among the sources; the
spec describes the sentinel as a reserved negative constant, numerically
distinguishable from every valid index, meaning "this lane is forced to the
zero value". -/
def SM_SentinelZero : Int := -1

/-- The slice of `MVT` (machine value type) this file queries: a vector type
exposing its element count and its element bit width. `getSizeInBits` of a
vector type is the product of the two. -/
structure MVT where
  numElts : Nat
  eltBits : Nat
deriving DecidableEq

/-- `VT.getVectorNumElements()`. -/
def MVT.getVectorNumElements (VT : MVT) : Nat := VT.numElts

/-- `VT.getSizeInBits()` for a vector type. -/
def MVT.getSizeInBits (VT : MVT) : Nat := VT.numElts * VT.eltBits

/-- `VT.getVectorElementType().getSizeInBits()`. -/
def MVT.eltSizeInBits (VT : MVT) : Nat := VT.eltBits

/-- The 128-bit lane count `VT.getSizeInBits() / 128` as computed by
`DecodePALIGNRMask`, `DecodePSHUFMask` and `DecodeSHUFPMask` (no guard
against a sub-128-bit vector). -/
def MVT.numLanes128 (VT : MVT) : Nat := VT.getSizeInBits / 128

/-- The 128-bit lane count as computed by `DecodeUNPCKHMask` and
`DecodeUNPCKLMask`: `VT.getSizeInBits() / 128`, followed by
`if (NumLanes == 0) NumLanes = 1;  // Handle MMX`. -/
def MVT.numLanes128OrMMX (VT : MVT) : Nat :=
  let NumLanes := VT.getSizeInBits / 128
  if NumLanes = 0 then 1 else NumLanes

/-- `DecodeINSERTPSMask`: pushes the identity `[0,1,2,3]`, decodes
`ZMask = Imm & 15`, `CountD = (Imm >> 4) & 3`, `CountS = (Imm >> 6) & 3`,
writes `4 + CountS` through the container's absolute position `CountD`, then
zaps the container's absolute positions `0..3` whose `ZMask` bit is set. -/
def DecodeINSERTPSMask (Imm : Nat) (ShuffleMask : List Int) : List Int :=
  let m := (((ShuffleMask.push 0).push 1).push 2).push 3
  let ZMask := Imm &&& 15
  let CountD := (Imm >>> 4) &&& 3
  let CountS := (Imm >>> 6) &&& 3
  let InVal : Int := ((4 + CountS : Nat) : Int)
  let m := m.set CountD InVal
  let m := if ZMask &&& 1 ≠ 0 then m.set 0 SM_SentinelZero else m
  let m := if ZMask &&& 2 ≠ 0 then m.set 1 SM_SentinelZero else m
  let m := if ZMask &&& 4 ≠ 0 then m.set 2 SM_SentinelZero else m
  if ZMask &&& 8 ≠ 0 then m.set 3 SM_SentinelZero else m

/-- `DecodeMOVHLPSMask`: for `i` in `[NElts/2, NElts)` push `NElts + i`,
then for the same range push `i`. -/
def DecodeMOVHLPSMask (NElts : Nat) (ShuffleMask : List Int) : List Int :=
  let m := (List.range' (NElts / 2) (NElts - NElts / 2)).foldl
    (fun a i => a.push ((NElts + i : Nat) : Int)) ShuffleMask
  (List.range' (NElts / 2) (NElts - NElts / 2)).foldl
    (fun a i => a.push ((i : Nat) : Int)) m

/-- `DecodeMOVLHPSMask`: for `i` in `[0, NElts/2)` push `i`, then for the
same range push `NElts + i`. -/
def DecodeMOVLHPSMask (NElts : Nat) (ShuffleMask : List Int) : List Int :=
  let m := (List.range (NElts / 2)).foldl
    (fun a i => a.push ((i : Nat) : Int)) ShuffleMask
  (List.range (NElts / 2)).foldl
    (fun a i => a.push ((NElts + i : Nat) : Int)) m

/-- `DecodePALIGNRMask`: `Offset = Imm * (eltBits/8)`; per 128-bit lane,
`Base = i + Offset`, bumped by `NumElts - NumLaneElts` when it falls outside
the lane, then rebased by the lane start `l`. -/
def DecodePALIGNRMask (VT : MVT) (Imm : Nat) (ShuffleMask : List Int) :
    List Int :=
  let NumElts := VT.getVectorNumElements
  let Offset := Imm * (VT.eltSizeInBits / 8)
  let NumLanes := VT.numLanes128
  let NumLaneElts := NumElts / NumLanes
  (List.range NumLanes).foldl (fun acc q =>
    let l := q * NumLaneElts
    (List.range NumLaneElts).foldl (fun a i =>
      let Base := i + Offset
      let Base := if NumLaneElts ≤ Base then Base + (NumElts - NumLaneElts)
                  else Base
      a.push ((Base + l : Nat) : Int)) acc) ShuffleMask

/-- The inner element loop shared by `DecodePSHUFMask` and `DecodeSHUFPMask`:
runs `n` iterations of `push (NewImm % NumLaneElts + l); NewImm /= NumLaneElts`
on the state `(ShuffleMask, NewImm)`. -/
def pshufInner (LE l : Nat) : Nat → List Int × Nat → List Int × Nat
  | 0, s => s
  | Nat.succ n, s =>
      pshufInner LE l n (s.1.push ((s.2 % LE + l : Nat) : Int), s.2 / LE)

/-- The lane loop of `DecodePSHUFMask`: for each lane index `q` (lane base
`l = q * NumLaneElts`), run the inner element loop, then
`if (NumLaneElts == 4) NewImm = Imm; // reload imm`. -/
def pshufLanes (LE Imm : Nat) : List Nat → List Int × Nat → List Int × Nat
  | [], s => s
  | q :: qs, s =>
      let t := pshufInner LE (q * LE) LE s
      pshufLanes LE Imm qs (t.1, if LE = 4 then Imm else t.2)

/-- `DecodePSHUFMask` (pshufd / vpermilp*): per 128-bit lane, repeatedly
extract `NewImm % NumLaneElts` as the intra-lane index; after each lane,
`if (NumLaneElts == 4) NewImm = Imm; // reload imm`. -/
def DecodePSHUFMask (VT : MVT) (Imm : Nat) (ShuffleMask : List Int) :
    List Int :=
  let NumElts := VT.getVectorNumElements
  let NumLanes := VT.numLanes128
  let NumLaneElts := NumElts / NumLanes
  (pshufLanes NumLaneElts Imm (List.range NumLanes) (ShuffleMask, Imm)).1

/-- The 2-bit-draining element loop of `DecodePSHUFHWMask` /
`DecodePSHUFLWMask`: runs `n` iterations of
`push (base + (NewImm & 3)); NewImm >>= 2`. -/
def pshufWordInner (base : Nat) : Nat → List Int × Nat → List Int × Nat
  | 0, s => s
  | Nat.succ n, s =>
      pshufWordInner base n
        (s.1.push ((base + (s.2 &&& 3) : Nat) : Int), s.2 >>> 2)

/-- `DecodePSHUFHWMask`: per group of 8 elements, the low 4 lanes are
identity `l + i`, the high 4 lanes are `l + 4 + (NewImm & 3)` with `NewImm`
reset to `Imm` at each group. -/
def DecodePSHUFHWMask (VT : MVT) (Imm : Nat) (ShuffleMask : List Int) :
    List Int :=
  let NumElts := VT.getVectorNumElements
  (List.range (NumElts / 8)).foldl (fun acc q =>
    let l := q * 8
    let acc := (List.range 4).foldl
      (fun a i => a.push ((l + i : Nat) : Int)) acc
    (pshufWordInner (l + 4) 4 (acc, Imm)).1) ShuffleMask

/-- `DecodePSHUFLWMask`: per group of 8 elements, the low 4 lanes are
`l + (NewImm & 3)` with `NewImm` reset to `Imm` at each group, the high 4
lanes are identity `l + i`. -/
def DecodePSHUFLWMask (VT : MVT) (Imm : Nat) (ShuffleMask : List Int) :
    List Int :=
  let NumElts := VT.getVectorNumElements
  (List.range (NumElts / 8)).foldl (fun acc q =>
    let l := q * 8
    let acc := (pshufWordInner l 4 (acc, Imm)).1
    (List.range' 4 4).foldl (fun a i => a.push ((l + i : Nat) : Int)) acc)
    ShuffleMask

/-- The lane loop of `DecodeSHUFPMask`: per 128-bit lane (base
`l = q * NumLaneElts`), the two lane halves come from sources `s = 0` and
`s = NumElts` (the two iterations of `for (s = 0; s != NumElts*2;
s += NumElts)`, unrolled), each half picking `NumLaneElts/2` indices
`NewImm % NumLaneElts + s + l`; after each lane,
`if (NumLaneElts == 4) NewImm = Imm; // reload imm`. -/
def shufpLanes (LE NE Imm : Nat) : List Nat → List Int × Nat → List Int × Nat
  | [], s => s
  | q :: qs, s =>
      let t := pshufInner LE (NE + q * LE) (LE / 2)
        (pshufInner LE (q * LE) (LE / 2) s)
      shufpLanes LE NE Imm qs (t.1, if LE = 4 then Imm else t.2)

def DecodeSHUFPMask (VT : MVT) (Imm : Nat) (ShuffleMask : List Int) :
    List Int :=
  let NumElts := VT.getVectorNumElements
  let NumLanes := VT.numLanes128
  let NumLaneElts := NumElts / NumLanes
  (shufpLanes NumLaneElts NumElts Imm (List.range NumLanes)
    (ShuffleMask, Imm)).1

/-- `DecodeUNPCKHMask`: per 128-bit lane (with the MMX collapse on the lane
count), for `i` in the upper lane half push `i` then `i + NumElts`. -/
def DecodeUNPCKHMask (VT : MVT) (ShuffleMask : List Int) : List Int :=
  let NumElts := VT.getVectorNumElements
  let NumLanes := VT.numLanes128OrMMX
  let NumLaneElts := NumElts / NumLanes
  (List.range NumLanes).foldl (fun acc q =>
    let l := q * NumLaneElts
    (List.range' (l + NumLaneElts / 2) (NumLaneElts - NumLaneElts / 2)).foldl
      (fun a i => (a.push ((i : Nat) : Int)).push ((i + NumElts : Nat) : Int))
      acc) ShuffleMask

/-- `DecodeUNPCKLMask`: per 128-bit lane (with the MMX collapse on the lane
count), for `i` in the lower lane half push `i` then `i + NumElts`. -/
def DecodeUNPCKLMask (VT : MVT) (ShuffleMask : List Int) : List Int :=
  let NumElts := VT.getVectorNumElements
  let NumLanes := VT.numLanes128OrMMX
  let NumLaneElts := NumElts / NumLanes
  (List.range NumLanes).foldl (fun acc q =>
    let l := q * NumLaneElts
    (List.range' l (NumLaneElts / 2)).foldl
      (fun a i => (a.push ((i : Nat) : Int)).push ((i + NumElts : Nat) : Int))
      acc) ShuffleMask

/-- `DecodeVPERM2X128Mask`: if `Imm & 0x88` the instruction can zero a half
and the decoder returns without pushing anything; otherwise each destination
half `l` is filled with the `HalfSize` consecutive indices starting at
`((Imm >> (l*4)) & 0x3) * HalfSize`. -/
def DecodeVPERM2X128Mask (VT : MVT) (Imm : Nat) (ShuffleMask : List Int) :
    List Int :=
  if Imm &&& 0x88 ≠ 0 then ShuffleMask
  else
    let HalfSize := VT.getVectorNumElements / 2
    (List.range 2).foldl (fun acc l =>
      let HalfBegin := ((Imm >>> (l * 4)) &&& 0x3) * HalfSize
      (List.range' HalfBegin HalfSize).foldl
        (fun a i => a.push ((i : Nat) : Int)) acc) ShuffleMask

/-- The slice of `ConstantDataSequential` this file queries: an `i8` vector
constant, exposing its element count and per-element integer extraction.
`eltBits` is the element width of the constant's vector type (asserted to be
8 by the decoder). -/
structure ConstantDataSequential where
  eltBits : Nat
  elems : List Nat

/-- `C->getNumElements()` (equal to `MaskTy->getVectorNumElements()` for a
`ConstantDataSequential`). -/
def ConstantDataSequential.getNumElements (C : ConstantDataSequential) : Nat :=
  C.elems.length

/-- `C->getElementAsInteger(i)`: the stored element, an unsigned value of the
element's bit width. -/
def ConstantDataSequential.getElementAsInteger (C : ConstantDataSequential)
    (i : Nat) : Nat :=
  C.elems.getD i 0 % 2 ^ C.eltBits

/-- `DecodePSHUFBMask(const ConstantDataSequential*, ...)`: per output byte
`i`, `Base` is 0 below position 16 and 16 from it on; bit 7 of the element
zeroes the lane, else `Base + Element` is pushed. The `assert`s (i8 element
type, 16 or 32 elements only, in-bounds computed index) are modelled as
`none` results. -/
def DecodePSHUFBMaskCDS (C : ConstantDataSequential)
    (ShuffleMask : List Int) : Option (List Int) :=
  if C.eltBits ≠ 8 then none
  else
    let NumElements := C.getNumElements
    if ¬(NumElements = 16 ∨ NumElements = 32) then none
    else
      (List.range NumElements).foldl (fun acc? i =>
        acc?.bind (fun acc =>
          let Base : Nat := if i < 16 then 0 else 16
          let Element := C.getElementAsInteger i
          if Element &&& (1 <<< 7) ≠ 0 then some (acc.push SM_SentinelZero)
          else
            let Index := Base + Element
            if Index < NumElements then some (acc.push ((Index : Nat) : Int))
            else none)) (some ShuffleMask)

/-- `DecodePSHUFBMask(ArrayRef<uint64_t>, ...)`: same per-byte rule on a raw
mask array of any length; the in-bounds `assert` on the computed index is
modelled as a `none` result. -/
def DecodePSHUFBMaskRaw (RawMask : List Nat) (ShuffleMask : List Int) :
    Option (List Int) :=
  (List.range RawMask.length).foldl (fun acc? i =>
    acc?.bind (fun acc =>
      let M := RawMask.getD i 0
      let Base : Nat := if i < 16 then 0 else 16
      if M &&& (1 <<< 7) ≠ 0 then some (acc.push SM_SentinelZero)
      else
        let Index := Base + M
        if Index < RawMask.length then some (acc.push ((Index : Nat) : Int))
        else none)) (some ShuffleMask)

/-- `DecodeBLENDMask`: lane `i` takes `NumElements + i` when bit `i` of the
immediate is set, else `i`. -/
def DecodeBLENDMask (VT : MVT) (Imm : Nat) (ShuffleMask : List Int) :
    List Int :=
  let NumElements := VT.getVectorNumElements
  (List.range NumElements).foldl (fun a i =>
    a.push (if (Imm >>> i) &&& 1 ≠ 0 then ((NumElements + i : Nat) : Int)
            else ((i : Nat) : Int))) ShuffleMask

/-- `DecodeVPERMMask` (VPERMQ/VPERMPD): lane `i` is the 2-bit field at bit
`2*i` of the immediate; fixed at 4 lanes. -/
def DecodeVPERMMask (Imm : Nat) (ShuffleMask : List Int) : List Int :=
  (List.range 4).foldl
    (fun a i => a.push (((Imm >>> (2 * i)) &&& 3 : Nat) : Int)) ShuffleMask

/-- Modelled from the spec (§4.3, claim C4): the byte-rotate decoder as the
spec's words describe it — identical to `DecodePALIGNRMask` except that the
source index starts from `i + Offset / elementByteSize` (the byte offset
divided back by the element byte size) instead of the source's `i + Offset`. -/
def DecodePALIGNRMaskSpecText (VT : MVT) (Imm : Nat) : List Int :=
  let NumElts := VT.getVectorNumElements
  let Offset := Imm * (VT.eltSizeInBits / 8)
  let NumLanes := VT.numLanes128
  let NumLaneElts := NumElts / NumLanes
  (List.range NumLanes).foldl (fun acc q =>
    let l := q * NumLaneElts
    (List.range NumLaneElts).foldl (fun a i =>
      let Base := i + Offset / (VT.eltSizeInBits / 8)
      let Base := if NumLaneElts ≤ Base then Base + (NumElts - NumLaneElts)
                  else Base
      a.push ((Base + l : Nat) : Int)) acc) []

/-- The value `DecodePALIGNRMask` pushes for intra-lane position `i` of the
lane with base `l`, given the scaled offset and the lane geometry. -/
def palignrEntry (Offset NumElts NumLaneElts l i : Nat) : Int :=
  ((if NumLaneElts ≤ i + Offset then i + Offset + (NumElts - NumLaneElts)
    else i + Offset) + l : Nat)


/-- Acceptance condition, per output position, of the raw-array
`DecodePSHUFBMask`: either the element's bit 7 zeroes the lane, or the
computed index passes the bounds `assert`. -/
def pshufbRawOk (RawMask : List Nat) (i : Nat) : Prop :=
  RawMask.getD i 0 &&& (1 <<< 7) ≠ 0
  ∨ (if i < 16 then 0 else 16) + RawMask.getD i 0 < RawMask.length

instance (RawMask : List Nat) (i : Nat) : Decidable (pshufbRawOk RawMask i) := by
  unfold pshufbRawOk
  infer_instance

/-- The entry the raw-array `DecodePSHUFBMask` pushes at output position
`i` (when accepted). -/
def pshufbRawEntry (RawMask : List Nat) (i : Nat) : Int :=
  if RawMask.getD i 0 &&& (1 <<< 7) ≠ 0 then SM_SentinelZero
  else (((if i < 16 then 0 else 16) + RawMask.getD i 0 : Nat) : Int)


/-- Acceptance condition, per output position, of the constant-data
`DecodePSHUFBMask`. -/
def pshufbCDSOk (C : ConstantDataSequential) (i : Nat) : Prop :=
  C.getElementAsInteger i &&& (1 <<< 7) ≠ 0
  ∨ (if i < 16 then 0 else 16) + C.getElementAsInteger i < C.getNumElements

instance (C : ConstantDataSequential) (i : Nat) :
    Decidable (pshufbCDSOk C i) := by
  unfold pshufbCDSOk
  infer_instance

/-- The entry the constant-data `DecodePSHUFBMask` pushes at position `i`
(when accepted). -/
def pshufbCDSEntry (C : ConstantDataSequential) (i : Nat) : Int :=
  if C.getElementAsInteger i &&& (1 <<< 7) ≠ 0 then SM_SentinelZero
  else (((if i < 16 then 0 else 16) + C.getElementAsInteger i : Nat) : Int)


/-- The spec's index range invariant: every entry of a mask is either the
zero sentinel or a source index in `[0, 2 * length)`. -/
def maskInRange (m : List Int) : Prop :=
  ∀ x ∈ m, x = SM_SentinelZero ∨ ((0 : Int) ≤ x ∧ x < 2 * m.length)

instance (m : List Int) : Decidable (maskInRange m) := by
  unfold maskInRange
  infer_instance


/-- The absolute-position writes `DecodeINSERTPSMask` performs through the
output container (`ShuffleMask[CountD] = InVal` and the four `ZMask` zaps),
applied to an arbitrary container. `DecodeINSERTPSMask Imm prev` is exactly
these writes applied to `prev ++ [0,1,2,3]`. -/
def insertpsWrites (Imm : Nat) (m : List Int) : List Int :=
  let ZMask := Imm &&& 15
  let CountD := (Imm >>> 4) &&& 3
  let CountS := (Imm >>> 6) &&& 3
  let m := m.set CountD ((4 + CountS : Nat) : Int)
  let m := if ZMask &&& 1 ≠ 0 then m.set 0 SM_SentinelZero else m
  let m := if ZMask &&& 2 ≠ 0 then m.set 1 SM_SentinelZero else m
  let m := if ZMask &&& 4 ≠ 0 then m.set 2 SM_SentinelZero else m
  if ZMask &&& 8 ≠ 0 then m.set 3 SM_SentinelZero else m


/-! ### Closed forms for the fold-based definitions -/

theorem foldl_push_eq (f : Nat → Int) :
    ∀ (xs : List Nat) (acc : List Int),
      xs.foldl (fun a i => a.push (f i)) acc = acc ++ xs.map f := by
  intro xs
  induction xs with
  | nil => intro acc; simp
  | cons x xs ih =>
    intro acc
    rw [List.foldl_cons, ih]
    simp [List.push]

theorem foldl_push2_eq (f g : Nat → Int) :
    ∀ (xs : List Nat) (acc : List Int),
      xs.foldl (fun a i => (a.push (f i)).push (g i)) acc
        = acc ++ xs.flatMap (fun i => [f i, g i]) := by
  intro xs
  induction xs with
  | nil => intro acc; simp
  | cons x xs ih =>
    intro acc
    rw [List.foldl_cons, ih]
    simp [List.push]

theorem foldl_block_eq {F : List Int → Nat → List Int} {g : Nat → List Int}
    (hF : ∀ a q, F a q = a ++ g q) :
    ∀ (xs : List Nat) (acc : List Int),
      xs.foldl F acc = acc ++ xs.flatMap g := by
  intro xs
  induction xs with
  | nil => intro acc; simp
  | cons x xs ih =>
    intro acc
    simp [List.foldl_cons, hF, ih]

theorem mem_flatMap_range_map {g : Nat → Nat → Int} {a : Nat} {b : Nat → Nat}
    {x : Int}
    (hx : x ∈ (List.range a).flatMap (fun q => (List.range (b q)).map (g q))) :
    ∃ q, q < a ∧ ∃ i, i < b q ∧ x = g q i := by
  rw [List.mem_flatMap] at hx
  obtain ⟨q, hq, hmem⟩ := hx
  rw [List.mem_range] at hq
  obtain ⟨i, hi, rfl⟩ := List.exists_of_mem_map hmem
  exact ⟨q, hq, i, List.mem_range.mp hi, rfl⟩

theorem length_flatMap_range_map {g : Nat → Nat → Int} {a b : Nat} :
    ((List.range a).flatMap (fun q => (List.range b).map (g q))).length
      = a * b := by
  induction a with
  | zero => simp
  | succ n ih =>
    rw [List.range_succ]
    simp only [List.flatMap_append, List.length_append, ih]
    simp [Nat.succ_mul]

theorem DecodeMOVHLPSMask_eq (NElts : Nat) (prev : List Int) :
    DecodeMOVHLPSMask NElts prev
      = prev
        ++ (List.range' (NElts / 2) (NElts - NElts / 2)).map
             (fun i => ((NElts + i : Nat) : Int))
        ++ (List.range' (NElts / 2) (NElts - NElts / 2)).map
             (fun i => ((i : Nat) : Int)) := by
  unfold DecodeMOVHLPSMask
  rw [foldl_push_eq, foldl_push_eq]

theorem DecodeMOVLHPSMask_eq (NElts : Nat) (prev : List Int) :
    DecodeMOVLHPSMask NElts prev
      = prev
        ++ (List.range (NElts / 2)).map (fun i => ((i : Nat) : Int))
        ++ (List.range (NElts / 2)).map (fun i => ((NElts + i : Nat) : Int)) := by
  unfold DecodeMOVLHPSMask
  rw [foldl_push_eq, foldl_push_eq]

theorem DecodePALIGNRMask_eq (VT : MVT) (Imm : Nat) (prev : List Int) :
    DecodePALIGNRMask VT Imm prev
      = prev
        ++ (List.range VT.numLanes128).flatMap (fun q =>
             (List.range (VT.numElts / VT.numLanes128)).map
               (palignrEntry (Imm * (VT.eltBits / 8)) VT.numElts
                 (VT.numElts / VT.numLanes128)
                 (q * (VT.numElts / VT.numLanes128)))) := by
  unfold DecodePALIGNRMask
  refine foldl_block_eq (fun a q => ?_) _ prev
  rw [foldl_push_eq]
  rfl

theorem DecodePALIGNRMaskSpecText_eq (VT : MVT) (Imm : Nat) :
    DecodePALIGNRMaskSpecText VT Imm
      = (List.range VT.numLanes128).flatMap (fun q =>
          (List.range (VT.numElts / VT.numLanes128)).map
            (palignrEntry (Imm * (VT.eltBits / 8) / (VT.eltBits / 8))
              VT.numElts (VT.numElts / VT.numLanes128)
              (q * (VT.numElts / VT.numLanes128)))) := by
  unfold DecodePALIGNRMaskSpecText
  refine foldl_block_eq (fun a q => ?_) _ []
  rw [foldl_push_eq]
  rfl

theorem DecodeUNPCKHMask_eq (VT : MVT) (prev : List Int) :
    DecodeUNPCKHMask VT prev
      = prev
        ++ (List.range VT.numLanes128OrMMX).flatMap (fun q =>
             let LE := VT.numElts / VT.numLanes128OrMMX
             (List.range' (q * LE + LE / 2) (LE - LE / 2)).flatMap
               (fun i => [((i : Nat) : Int), ((i + VT.numElts : Nat) : Int)])) := by
  unfold DecodeUNPCKHMask MVT.getVectorNumElements
  refine foldl_block_eq (fun a q => ?_) _ prev
  rw [foldl_push2_eq]

theorem DecodeUNPCKLMask_eq (VT : MVT) (prev : List Int) :
    DecodeUNPCKLMask VT prev
      = prev
        ++ (List.range VT.numLanes128OrMMX).flatMap (fun q =>
             let LE := VT.numElts / VT.numLanes128OrMMX
             (List.range' (q * LE) (LE / 2)).flatMap
               (fun i => [((i : Nat) : Int), ((i + VT.numElts : Nat) : Int)])) := by
  unfold DecodeUNPCKLMask MVT.getVectorNumElements
  refine foldl_block_eq (fun a q => ?_) _ prev
  rw [foldl_push2_eq]

theorem DecodeVPERM2X128Mask_eq (VT : MVT) (Imm : Nat) (prev : List Int) :
    DecodeVPERM2X128Mask VT Imm prev
      = if Imm &&& 0x88 ≠ 0 then prev
        else prev
          ++ (List.range 2).flatMap (fun l =>
               (List.range' (((Imm >>> (l * 4)) &&& 0x3)
                   * (VT.numElts / 2)) (VT.numElts / 2)).map
                 (fun i => ((i : Nat) : Int))) := by
  unfold DecodeVPERM2X128Mask MVT.getVectorNumElements
  split
  · rfl
  · refine foldl_block_eq (fun a l => ?_) _ prev
    rw [foldl_push_eq]

theorem DecodeBLENDMask_eq (VT : MVT) (Imm : Nat) (prev : List Int) :
    DecodeBLENDMask VT Imm prev
      = prev
        ++ (List.range VT.numElts).map (fun i =>
             if (Imm >>> i) &&& 1 ≠ 0 then ((VT.numElts + i : Nat) : Int)
             else ((i : Nat) : Int)) := by
  unfold DecodeBLENDMask MVT.getVectorNumElements
  rw [foldl_push_eq
    (fun i => if (Imm >>> i) &&& 1 ≠ 0 then ((VT.numElts + i : Nat) : Int)
              else ((i : Nat) : Int))]

theorem DecodeVPERMMask_eq (Imm : Nat) (prev : List Int) :
    DecodeVPERMMask Imm prev
      = prev ++ (List.range 4).map
          (fun i => (((Imm >>> (2 * i)) &&& 3 : Nat) : Int)) := by
  unfold DecodeVPERMMask
  rw [foldl_push_eq]

theorem pshufInner_eq (LE l : Nat) :
    ∀ (n : Nat) (acc : List Int) (imm : Nat),
      pshufInner LE l n (acc, imm)
        = (acc ++ (List.range n).map
            (fun i => ((imm / LE ^ i % LE + l : Nat) : Int)),
           imm / LE ^ n) := by
  intro n
  induction n with
  | zero => intro acc imm; simp [pshufInner]
  | succ n ih =>
    intro acc imm
    have key : ∀ i : Nat, imm / LE / LE ^ i = imm / LE ^ (i + 1) := by
      intro i
      rw [Nat.div_div_eq_div_mul, Nat.mul_comm, ← pow_succ]
    rw [pshufInner, ih]
    simp only [Prod.mk.injEq]
    constructor
    · simp [List.range_succ_eq_map, List.push, key, Function.comp_def,
        Nat.succ_eq_add_one]
    · exact key n

theorem pshufWordInner_eq (base : Nat) :
    ∀ (n : Nat) (acc : List Int) (imm : Nat),
      pshufWordInner base n (acc, imm)
        = (acc ++ (List.range n).map
            (fun i => ((base + ((imm >>> (2 * i)) &&& 3) : Nat) : Int)),
           imm >>> (2 * n)) := by
  intro n
  induction n with
  | zero => intro acc imm; simp [pshufWordInner]
  | succ n ih =>
    intro acc imm
    have key : ∀ i : Nat, imm >>> 2 >>> (2 * i) = imm >>> (2 * (i + 1)) := by
      intro i
      rw [show 2 * (i + 1) = 2 + 2 * i by ring, Nat.shiftRight_add]
    rw [pshufWordInner, ih]
    simp only [Prod.mk.injEq]
    constructor
    · simp [List.range_succ_eq_map, List.push, key, Function.comp_def,
        Nat.succ_eq_add_one]
    · exact key n

theorem pshufLanes_reload (Imm : Nat) :
    ∀ (qs : List Nat) (acc : List Int),
      pshufLanes 4 Imm qs (acc, Imm)
        = (acc ++ qs.flatMap (fun q => (List.range 4).map
            (fun i => ((Imm / 4 ^ i % 4 + q * 4 : Nat) : Int))), Imm) := by
  intro qs
  induction qs with
  | nil => intro acc; simp [pshufLanes]
  | cons q qs ih =>
    intro acc
    simp only [pshufLanes, pshufInner_eq, if_true]
    rw [ih]
    simp

theorem pshufLanes_drain (LE Imm : Nat) (hne : LE ≠ 4) :
    ∀ (n q0 : Nat) (acc : List Int) (imm : Nat),
      pshufLanes LE Imm (List.range' q0 n) (acc, imm)
        = (acc ++ (List.range n).flatMap (fun t =>
            (List.range LE).map (fun i =>
              ((imm / LE ^ (t * LE + i) % LE + (q0 + t) * LE : Nat) : Int))),
           imm / LE ^ (n * LE)) := by
  intro n
  induction n with
  | zero => intro q0 acc imm; simp [pshufLanes]
  | succ n ih =>
    intro q0 acc imm
    have k1 : ∀ j : Nat, imm / LE ^ LE / LE ^ j = imm / LE ^ (LE + j) := by
      intro j
      rw [Nat.div_div_eq_div_mul, ← pow_add]
    have k2 : ∀ t i : Nat, LE + (t * LE + i) = (t + 1) * LE + i := by
      intro t i; ring
    have k3 : ∀ t : Nat, q0 + 1 + t = q0 + (t + 1) := by intro t; omega
    rw [List.range'_succ]
    simp only [pshufLanes, pshufInner_eq]
    rw [if_neg hne, ih]
    simp only [Prod.mk.injEq]
    constructor
    · rw [List.range_succ_eq_map]
      simp [List.flatMap_map, k1, k2, k3, Nat.succ_eq_add_one,
        List.append_assoc]
    · rw [k1, Nat.succ_mul, Nat.add_comm (n * LE) LE]

theorem DecodePSHUFMask_reload_eq (VT : MVT) (Imm : Nat) (prev : List Int)
    (h4 : VT.numElts / VT.numLanes128 = 4) :
    DecodePSHUFMask VT Imm prev
      = prev ++ (List.range VT.numLanes128).flatMap (fun q =>
          (List.range 4).map
            (fun i => ((Imm / 4 ^ i % 4 + q * 4 : Nat) : Int))) := by
  simp only [DecodePSHUFMask, MVT.getVectorNumElements]
  rw [h4, pshufLanes_reload]

theorem DecodePSHUFMask_drain_eq (VT : MVT) (Imm : Nat) (prev : List Int)
    (hne : VT.numElts / VT.numLanes128 ≠ 4) :
    DecodePSHUFMask VT Imm prev
      = prev ++ (List.range VT.numLanes128).flatMap (fun q =>
          (List.range (VT.numElts / VT.numLanes128)).map (fun i =>
            ((Imm / (VT.numElts / VT.numLanes128) ^
                  (q * (VT.numElts / VT.numLanes128) + i)
                % (VT.numElts / VT.numLanes128)
                + q * (VT.numElts / VT.numLanes128) : Nat) : Int))) := by
  simp only [DecodePSHUFMask, MVT.getVectorNumElements]
  rw [List.range_eq_range', pshufLanes_drain _ _ hne]
  simp [List.range_eq_range']

theorem shufpLanes_reload (NE Imm : Nat) :
    ∀ (qs : List Nat) (acc : List Int),
      shufpLanes 4 NE Imm qs (acc, Imm)
        = (acc ++ qs.flatMap (fun q =>
            (List.range 2).map (fun i =>
              ((Imm / 4 ^ i % 4 + q * 4 : Nat) : Int))
            ++ (List.range 2).map (fun i =>
              ((Imm / 4 ^ (2 + i) % 4 + (NE + q * 4) : Nat) : Int))), Imm) := by
  intro qs
  induction qs with
  | nil => intro acc; simp [shufpLanes]
  | cons q qs ih =>
    intro acc
    have k1 : ∀ j : Nat, Imm / 4 ^ 2 / 4 ^ j = Imm / 4 ^ (2 + j) := by
      intro j
      rw [Nat.div_div_eq_div_mul, ← pow_add]
    have h42 : (4 : Nat) / 2 = 2 := rfl
    simp only [shufpLanes, pshufInner_eq, if_true, h42]
    rw [ih]
    simp only [List.flatMap_cons, k1]
    simp [List.append_assoc]

theorem shufpLanes_drain (E NE Imm : Nat) (hne : 2 * E ≠ 4) :
    ∀ (n q0 : Nat) (acc : List Int) (imm : Nat),
      shufpLanes (2 * E) NE Imm (List.range' q0 n) (acc, imm)
        = (acc ++ (List.range n).flatMap (fun t =>
            (List.range E).map (fun i =>
              ((imm / (2 * E) ^ (t * (2 * E) + i) % (2 * E)
                + (q0 + t) * (2 * E) : Nat) : Int))
            ++ (List.range E).map (fun i =>
              ((imm / (2 * E) ^ (t * (2 * E) + E + i) % (2 * E)
                + (NE + (q0 + t) * (2 * E)) : Nat) : Int))),
           imm / (2 * E) ^ (n * (2 * E))) := by
  have hE : 2 * E / 2 = E := by omega
  intro n
  induction n with
  | zero => intro q0 acc imm; simp [shufpLanes]
  | succ n ih =>
    intro q0 acc imm
    have k1 : ∀ j : Nat, imm / (2 * E) ^ E / (2 * E) ^ j
        = imm / (2 * E) ^ (E + j) := by
      intro j
      rw [Nat.div_div_eq_div_mul, ← pow_add]
    have k2 : ∀ j : Nat, imm / (2 * E) ^ (E + E) / (2 * E) ^ j
        = imm / (2 * E) ^ (E + E + j) := by
      intro j
      rw [Nat.div_div_eq_div_mul, ← pow_add]
    have k3 : ∀ t i : Nat, E + E + (t * (2 * E) + i) = (t + 1) * (2 * E) + i := by
      intro t i; ring
    have k4 : ∀ t i : Nat, E + E + (t * (2 * E) + E + i)
        = (t + 1) * (2 * E) + E + i := by
      intro t i; ring
    have k5 : ∀ t : Nat, q0 + 1 + t = q0 + (t + 1) := by intro t; omega
    rw [List.range'_succ]
    simp only [shufpLanes, pshufInner_eq, hE]
    rw [if_neg hne, ih]
    simp only [Prod.mk.injEq]
    constructor
    · rw [List.range_succ_eq_map]
      simp [List.flatMap_map, k1, k2, k3, k4, k5, Nat.succ_eq_add_one,
        List.append_assoc]
    · rw [k1, k2, show E + E + n * (2 * E) = (n + 1) * (2 * E) by ring]

theorem DecodeSHUFPMask_reload_eq (VT : MVT) (Imm : Nat) (prev : List Int)
    (h4 : VT.numElts / VT.numLanes128 = 4) :
    DecodeSHUFPMask VT Imm prev
      = prev ++ (List.range VT.numLanes128).flatMap (fun q =>
          (List.range 2).map (fun i =>
            ((Imm / 4 ^ i % 4 + q * 4 : Nat) : Int))
          ++ (List.range 2).map (fun i =>
            ((Imm / 4 ^ (2 + i) % 4 + (VT.numElts + q * 4) : Nat) : Int))) := by
  simp only [DecodeSHUFPMask, MVT.getVectorNumElements]
  rw [h4, shufpLanes_reload]

theorem DecodeSHUFPMask_drain_eq (VT : MVT) (Imm : Nat) (prev : List Int)
    (E : Nat) (hE : VT.numElts / VT.numLanes128 = 2 * E)
    (hne : VT.numElts / VT.numLanes128 ≠ 4) :
    DecodeSHUFPMask VT Imm prev
      = prev ++ (List.range VT.numLanes128).flatMap (fun q =>
          (List.range E).map (fun i =>
            ((Imm / (2 * E) ^ (q * (2 * E) + i) % (2 * E)
              + q * (2 * E) : Nat) : Int))
          ++ (List.range E).map (fun i =>
            ((Imm / (2 * E) ^ (q * (2 * E) + E + i) % (2 * E)
              + (VT.numElts + q * (2 * E)) : Nat) : Int))) := by
  rw [hE] at hne
  simp only [DecodeSHUFPMask, MVT.getVectorNumElements]
  rw [hE, List.range_eq_range', shufpLanes_drain _ _ _ hne]
  simp [List.range_eq_range']

theorem DecodePSHUFHWMask_eq (VT : MVT) (Imm : Nat) (prev : List Int) :
    DecodePSHUFHWMask VT Imm prev
      = prev ++ (List.range (VT.numElts / 8)).flatMap (fun q =>
          (List.range 4).map (fun i => ((q * 8 + i : Nat) : Int))
          ++ (List.range 4).map (fun i =>
            ((q * 8 + 4 + ((Imm >>> (2 * i)) &&& 3) : Nat) : Int))) := by
  unfold DecodePSHUFHWMask MVT.getVectorNumElements
  refine foldl_block_eq (fun a q => ?_) _ prev
  simp only [foldl_push_eq, pshufWordInner_eq]
  simp

theorem DecodePSHUFLWMask_eq (VT : MVT) (Imm : Nat) (prev : List Int) :
    DecodePSHUFLWMask VT Imm prev
      = prev ++ (List.range (VT.numElts / 8)).flatMap (fun q =>
          (List.range 4).map (fun i =>
            ((q * 8 + ((Imm >>> (2 * i)) &&& 3) : Nat) : Int))
          ++ (List.range' 4 4).map (fun i => ((q * 8 + i : Nat) : Int))) := by
  unfold DecodePSHUFLWMask MVT.getVectorNumElements
  refine foldl_block_eq (fun a q => ?_) _ prev
  simp only [foldl_push_eq, pshufWordInner_eq]
  simp

theorem foldl_none_eq {step : Option (List Int) → Nat → Option (List Int)}
    (hnone : ∀ i, step none i = none) :
    ∀ (xs : List Nat), xs.foldl step none = none := by
  intro xs
  induction xs with
  | nil => rfl
  | cons x xs ih => rw [List.foldl_cons, hnone, ih]

theorem optFoldl_eq {step : Option (List Int) → Nat → Option (List Int)}
    {P : Nat → Prop} [DecidablePred P] {f : Nat → Int}
    (hsome : ∀ (acc : List Int) (i : Nat),
      step (some acc) i = if P i then some (acc.push (f i)) else none)
    (hnone : ∀ i, step none i = none) :
    ∀ (xs : List Nat) (acc : List Int),
      xs.foldl step (some acc)
        = if ∀ i ∈ xs, P i then some (acc ++ xs.map f) else none := by
  intro xs
  induction xs with
  | nil => intro acc; simp
  | cons x xs ih =>
    intro acc
    rw [List.foldl_cons, hsome]
    by_cases hx : P x
    · rw [if_pos hx, ih]
      by_cases hxs : ∀ i ∈ xs, P i
      · rw [if_pos hxs, if_pos (by simpa [hx] using hxs)]
        simp [List.push]
      · rw [if_neg hxs, if_neg (by simp [hxs])]
    · rw [if_neg hx, foldl_none_eq hnone,
        if_neg (by intro h; exact hx (h x (by simp)))]

theorem DecodePSHUFBMaskRaw_eq (RawMask : List Nat) (prev : List Int) :
    DecodePSHUFBMaskRaw RawMask prev
      = if ∀ i ∈ List.range RawMask.length, pshufbRawOk RawMask i
        then some (prev ++ (List.range RawMask.length).map
          (pshufbRawEntry RawMask))
        else none := by
  unfold DecodePSHUFBMaskRaw
  rw [optFoldl_eq (P := pshufbRawOk RawMask) (f := pshufbRawEntry RawMask)
    ?_ ?_ (List.range RawMask.length) prev]
  · intro acc i
    unfold pshufbRawOk pshufbRawEntry
    by_cases h7 : RawMask.getD i 0 &&& (1 <<< 7) ≠ 0
    · simp only [Option.bind]
      rw [if_pos h7, if_pos (Or.inl h7), if_pos h7]
    · by_cases hb : (if i < 16 then 0 else 16) + RawMask.getD i 0
          < RawMask.length
      · simp only [Option.bind]
        rw [if_neg h7, if_pos hb, if_pos (Or.inr hb), if_neg h7]
      · simp only [Option.bind]
        rw [if_neg h7, if_neg hb,
          if_neg (by rintro (h | h); exacts [h7 h, hb h])]
  · intro i; rfl

theorem DecodePSHUFBMaskCDS_eq (C : ConstantDataSequential) (prev : List Int) :
    DecodePSHUFBMaskCDS C prev
      = if C.eltBits = 8 ∧ (C.getNumElements = 16 ∨ C.getNumElements = 32)
        then (if ∀ i ∈ List.range C.getNumElements, pshufbCDSOk C i
              then some (prev ++ (List.range C.getNumElements).map
                (pshufbCDSEntry C))
              else none)
        else none := by
  unfold DecodePSHUFBMaskCDS
  by_cases h8 : C.eltBits = 8
  · by_cases hlen : C.getNumElements = 16 ∨ C.getNumElements = 32
    · rw [if_neg (by simp [h8]), if_neg (by simp [hlen]),
        if_pos (And.intro h8 hlen)]
      rw [optFoldl_eq (P := pshufbCDSOk C) (f := pshufbCDSEntry C)
        ?_ ?_ (List.range C.getNumElements) prev]
      · intro acc i
        unfold pshufbCDSOk pshufbCDSEntry
        by_cases h7 : C.getElementAsInteger i &&& (1 <<< 7) ≠ 0
        · simp only [Option.bind]
          rw [if_pos h7, if_pos (Or.inl h7), if_pos h7]
        · by_cases hb : (if i < 16 then 0 else 16) + C.getElementAsInteger i
              < C.getNumElements
          · simp only [Option.bind]
            rw [if_neg h7, if_pos hb, if_pos (Or.inr hb), if_neg h7]
          · simp only [Option.bind]
            rw [if_neg h7, if_neg hb,
              if_neg (by rintro (h | h); exacts [h7 h, hb h])]
      · intro i; rfl
    · rw [if_neg (by simp [h8]), if_pos (by simpa using hlen),
        if_neg (by simp [hlen])]
  · rw [if_pos (by simp [h8]), if_neg (by simp [h8])]

/-! ### The index range invariant -/

theorem movhlps_range (NElts : Nat) :
    maskInRange (DecodeMOVHLPSMask NElts []) := by
  intro x hx
  rw [DecodeMOVHLPSMask_eq] at hx ⊢
  right
  simp only [List.nil_append, List.mem_append, List.mem_map,
    List.mem_range'] at hx
  simp only [List.nil_append, List.length_append, List.length_map,
    List.length_range']
  rcases hx with ⟨i, hi, rfl⟩ | ⟨i, hi, rfl⟩ <;>
    constructor <;> push_cast <;> omega

theorem movlhps_range (NElts : Nat) :
    maskInRange (DecodeMOVLHPSMask NElts []) := by
  intro x hx
  rw [DecodeMOVLHPSMask_eq] at hx ⊢
  right
  simp only [List.nil_append, List.mem_append, List.mem_map,
    List.mem_range] at hx
  simp only [List.nil_append, List.length_append, List.length_map,
    List.length_range]
  rcases hx with ⟨i, hi, rfl⟩ | ⟨i, hi, rfl⟩ <;>
    constructor <;> push_cast <;> omega

theorem blend_range (VT : MVT) (Imm : Nat) :
    maskInRange (DecodeBLENDMask VT Imm []) := by
  intro x hx
  rw [DecodeBLENDMask_eq] at hx ⊢
  right
  simp only [List.nil_append, List.mem_map, List.mem_range] at hx
  simp only [List.nil_append, List.length_map, List.length_range]
  obtain ⟨i, hi, rfl⟩ := hx
  split <;> constructor <;> push_cast <;> omega

theorem vperm_range (Imm : Nat) :
    maskInRange (DecodeVPERMMask Imm []) := by
  intro x hx
  rw [DecodeVPERMMask_eq] at hx ⊢
  right
  simp only [List.nil_append, List.mem_map, List.mem_range] at hx
  simp only [List.nil_append, List.length_map, List.length_range]
  obtain ⟨i, hi, rfl⟩ := hx
  have hb : (Imm >>> (2 * i)) &&& 3 ≤ 3 := Nat.and_le_right
  constructor <;> push_cast <;> omega

theorem vperm2x128_range (VT : MVT) (Imm : Nat) :
    maskInRange (DecodeVPERM2X128Mask VT Imm []) := by
  intro x hx
  rw [DecodeVPERM2X128Mask_eq] at hx ⊢
  by_cases hc : Imm &&& 0x88 ≠ 0
  · rw [if_pos hc] at hx
    simp at hx
  · rw [if_neg hc] at hx ⊢
    right
    simp only [List.nil_append, List.mem_flatMap, List.mem_map,
      List.mem_range, List.mem_range'] at hx
    obtain ⟨l, hl, i, hi, rfl⟩ := hx
    have hsel : (Imm >>> (l * 4)) &&& 0x3 ≤ 3 := Nat.and_le_right
    have hlen : ((List.range 2).flatMap (fun l =>
        (List.range' (((Imm >>> (l * 4)) &&& 0x3) * (VT.numElts / 2))
          (VT.numElts / 2)).map (fun i => ((i : Nat) : Int)))).length
        = 2 * (VT.numElts / 2) := by
      simp [List.length_flatMap, List.range_succ]
      ring
    rw [List.nil_append, hlen]
    have hup : i < 4 * (VT.numElts / 2) := by
      have : ((Imm >>> (l * 4)) &&& 0x3) * (VT.numElts / 2)
          ≤ 3 * (VT.numElts / 2) := Nat.mul_le_mul_right _ hsel
      omega
    constructor <;> push_cast <;> omega

set_option maxRecDepth 8000 in
theorem insertps_range (Imm : Nat) (h : Imm < 256) :
    maskInRange (DecodeINSERTPSMask Imm []) := by
  revert Imm
  decide

theorem palignr_range (VT : MVT) (Imm : Nat)
    (hgeom : VT.numLanes128 * (VT.numElts / VT.numLanes128) = VT.numElts)
    (hoff : Imm * (VT.eltBits / 8) ≤ VT.numElts / VT.numLanes128) :
    maskInRange (DecodePALIGNRMask VT Imm []) := by
  intro x hx
  rw [DecodePALIGNRMask_eq] at hx ⊢
  right
  rw [List.nil_append] at hx ⊢
  rw [length_flatMap_range_map, hgeom]
  obtain ⟨q, hq, i, hi, rfl⟩ := mem_flatMap_range_map hx
  unfold palignrEntry
  have hqle : q * (VT.numElts / VT.numLanes128) + (VT.numElts / VT.numLanes128)
      ≤ VT.numLanes128 * (VT.numElts / VT.numLanes128) := by
    have := Nat.mul_le_mul_right (VT.numElts / VT.numLanes128)
      (Nat.succ_le_of_lt hq)
    rw [Nat.succ_mul] at this
    exact this
  rw [hgeom] at hqle
  split
  · refine ⟨Int.natCast_nonneg _, ?_⟩
    have hnat : i + Imm * (VT.eltBits / 8)
        + (VT.numElts - VT.numElts / VT.numLanes128)
        + q * (VT.numElts / VT.numLanes128) < 2 * VT.numElts := by
      omega
    exact_mod_cast hnat
  · refine ⟨Int.natCast_nonneg _, ?_⟩
    have hnat : i + Imm * (VT.eltBits / 8)
        + q * (VT.numElts / VT.numLanes128) < 2 * VT.numElts := by
      omega
    exact_mod_cast hnat

theorem pshuf_range (VT : MVT) (Imm : Nat) :
    maskInRange (DecodePSHUFMask VT Imm []) := by
  by_cases h4 : VT.numElts / VT.numLanes128 = 4
  · intro x hx
    rw [DecodePSHUFMask_reload_eq _ _ _ h4] at hx ⊢
    right
    rw [List.nil_append] at hx ⊢
    rw [length_flatMap_range_map]
    obtain ⟨q, hq, i, hi, rfl⟩ := mem_flatMap_range_map hx
    have hmod : Imm / 4 ^ i % 4 < 4 := Nat.mod_lt _ (by norm_num)
    have hqle : q * 4 + 4 ≤ VT.numLanes128 * 4 := by
      have := Nat.mul_le_mul_right 4 (Nat.succ_le_of_lt hq)
      rw [Nat.succ_mul] at this
      exact this
    refine ⟨Int.natCast_nonneg _, ?_⟩
    have hnat : Imm / 4 ^ i % 4 + q * 4 < 2 * (VT.numLanes128 * 4) := by
      omega
    exact_mod_cast hnat
  · intro x hx
    rw [DecodePSHUFMask_drain_eq _ _ _ h4] at hx ⊢
    right
    rw [List.nil_append] at hx ⊢
    rw [length_flatMap_range_map]
    obtain ⟨q, hq, i, hi, rfl⟩ := mem_flatMap_range_map hx
    have hmod : Imm / (VT.numElts / VT.numLanes128) ^
        (q * (VT.numElts / VT.numLanes128) + i)
        % (VT.numElts / VT.numLanes128) < VT.numElts / VT.numLanes128 :=
      Nat.mod_lt _ (by omega)
    have hqle : q * (VT.numElts / VT.numLanes128)
        + (VT.numElts / VT.numLanes128)
        ≤ VT.numLanes128 * (VT.numElts / VT.numLanes128) := by
      have := Nat.mul_le_mul_right (VT.numElts / VT.numLanes128)
        (Nat.succ_le_of_lt hq)
      rw [Nat.succ_mul] at this
      exact this
    refine ⟨Int.natCast_nonneg _, ?_⟩
    have hnat : Imm / (VT.numElts / VT.numLanes128) ^
          (q * (VT.numElts / VT.numLanes128) + i)
          % (VT.numElts / VT.numLanes128)
          + q * (VT.numElts / VT.numLanes128)
        < 2 * (VT.numLanes128 * (VT.numElts / VT.numLanes128)) := by
      omega
    exact_mod_cast hnat

theorem pshufhw_range (VT : MVT) (Imm : Nat) :
    maskInRange (DecodePSHUFHWMask VT Imm []) := by
  intro x hx
  rw [DecodePSHUFHWMask_eq] at hx ⊢
  right
  rw [List.nil_append] at hx ⊢
  have hlen : ((List.range (VT.numElts / 8)).flatMap (fun q =>
      (List.range 4).map (fun i => ((q * 8 + i : Nat) : Int))
      ++ (List.range 4).map (fun i =>
        ((q * 8 + 4 + ((Imm >>> (2 * i)) &&& 3) : Nat) : Int)))).length
      = (VT.numElts / 8) * 8 := by
    induction (VT.numElts / 8) with
    | zero => simp
    | succ n ih =>
      rw [List.range_succ]
      simp only [List.flatMap_append, List.length_append, ih]
      simp [Nat.succ_mul]
  rw [hlen]
  simp only [List.mem_flatMap, List.mem_append, List.mem_map,
    List.mem_range] at hx
  obtain ⟨q, hq, hx | hx⟩ := hx <;> obtain ⟨i, hi, rfl⟩ := hx <;>
    [skip; have hb : (Imm >>> (2 * i)) &&& 3 ≤ 3 := Nat.and_le_right] <;>
    have hqle : q * 8 + 8 ≤ (VT.numElts / 8) * 8 := by
      have := Nat.mul_le_mul_right 8 (Nat.succ_le_of_lt hq)
      rw [Nat.succ_mul] at this
      exact this
  all_goals constructor <;> push_cast <;> omega

theorem pshuflw_range (VT : MVT) (Imm : Nat) :
    maskInRange (DecodePSHUFLWMask VT Imm []) := by
  intro x hx
  rw [DecodePSHUFLWMask_eq] at hx ⊢
  right
  rw [List.nil_append] at hx ⊢
  have hlen : ((List.range (VT.numElts / 8)).flatMap (fun q =>
      (List.range 4).map (fun i =>
        ((q * 8 + ((Imm >>> (2 * i)) &&& 3) : Nat) : Int))
      ++ (List.range' 4 4).map (fun i => ((q * 8 + i : Nat) : Int)))).length
      = (VT.numElts / 8) * 8 := by
    induction (VT.numElts / 8) with
    | zero => simp
    | succ n ih =>
      rw [List.range_succ]
      simp only [List.flatMap_append, List.length_append, ih]
      simp [Nat.succ_mul]
  rw [hlen]
  simp only [List.mem_flatMap, List.mem_append, List.mem_map,
    List.mem_range, List.mem_range'] at hx
  obtain ⟨q, hq, hx | hx⟩ := hx <;> obtain ⟨i, hi, rfl⟩ := hx <;>
    [have hb : (Imm >>> (2 * i)) &&& 3 ≤ 3 := Nat.and_le_right; skip] <;>
    have hqle : q * 8 + 8 ≤ (VT.numElts / 8) * 8 := by
      have := Nat.mul_le_mul_right 8 (Nat.succ_le_of_lt hq)
      rw [Nat.succ_mul] at this
      exact this
  all_goals constructor <;> push_cast <;> omega

theorem length_flatMap_const {g : Nat → List Int} {a c : Nat}
    (hc : ∀ q, (g q).length = c) :
    ((List.range a).flatMap g).length = a * c := by
  induction a with
  | zero => simp
  | succ n ih =>
    rw [List.range_succ]
    simp only [List.flatMap_append, List.length_append, ih]
    simp [hc, Nat.succ_mul]

theorem length_flatMap_pair {f g : Nat → Int} :
    ∀ (c s : Nat),
      ((List.range' s c).flatMap (fun i => [f i, g i])).length = 2 * c := by
  intro c
  induction c with
  | zero => intro s; simp
  | succ n ih =>
    intro s
    rw [List.range'_succ]
    simp only [List.flatMap_cons, List.length_append, ih]
    simp
    omega

theorem shufp_range (VT : MVT) (Imm : Nat)
    (hgeom : VT.numLanes128 * (VT.numElts / VT.numLanes128) = VT.numElts)
    (heven : 2 ∣ (VT.numElts / VT.numLanes128)) :
    maskInRange (DecodeSHUFPMask VT Imm []) := by
  by_cases h4 : VT.numElts / VT.numLanes128 = 4
  · intro x hx
    rw [DecodeSHUFPMask_reload_eq _ _ _ h4] at hx ⊢
    rw [h4] at hgeom
    right
    rw [List.nil_append] at hx ⊢
    rw [length_flatMap_const (c := 4) (by intro q; simp)]
    simp only [List.mem_flatMap, List.mem_append, List.mem_map,
      List.mem_range] at hx
    obtain ⟨q, hq, hx | hx⟩ := hx <;> obtain ⟨i, hi, rfl⟩ := hx <;>
      have hqle : q * 4 + 4 ≤ VT.numLanes128 * 4 := by
        have := Nat.mul_le_mul_right 4 (Nat.succ_le_of_lt hq)
        rw [Nat.succ_mul] at this
        exact this
    · refine ⟨Int.natCast_nonneg _, ?_⟩
      have hmod : Imm / 4 ^ i % 4 < 4 := Nat.mod_lt _ (by norm_num)
      have hnat : Imm / 4 ^ i % 4 + q * 4 < 2 * (VT.numLanes128 * 4) := by
        omega
      exact_mod_cast hnat
    · refine ⟨Int.natCast_nonneg _, ?_⟩
      have hmod : Imm / 4 ^ (2 + i) % 4 < 4 := Nat.mod_lt _ (by norm_num)
      have hnat : Imm / 4 ^ (2 + i) % 4 + (VT.numElts + q * 4)
          < 2 * (VT.numLanes128 * 4) := by omega
      exact_mod_cast hnat
  · obtain ⟨E, hE⟩ := heven
    intro x hx
    rw [DecodeSHUFPMask_drain_eq _ _ _ E hE h4] at hx ⊢
    right
    rw [List.nil_append] at hx ⊢
    rw [length_flatMap_const (c := 2 * E) (by intro q; simp; ring)]
    simp only [List.mem_flatMap, List.mem_append, List.mem_map,
      List.mem_range] at hx
    have hEpos : 0 < 2 * E → (0:Nat) < 2 * E := fun h => h
    obtain ⟨q, hq, hx | hx⟩ := hx <;> obtain ⟨i, hi, rfl⟩ := hx <;>
      have hqle : q * (2 * E) + 2 * E ≤ VT.numLanes128 * (2 * E) := by
        have := Nat.mul_le_mul_right (2 * E) (Nat.succ_le_of_lt hq)
        rw [Nat.succ_mul] at this
        exact this
    · refine ⟨Int.natCast_nonneg _, ?_⟩
      have hmod : Imm / (2 * E) ^ (q * (2 * E) + i) % (2 * E) < 2 * E :=
        Nat.mod_lt _ (by omega)
      have hnat : Imm / (2 * E) ^ (q * (2 * E) + i) % (2 * E) + q * (2 * E)
          < 2 * (VT.numLanes128 * (2 * E)) := by omega
      exact_mod_cast hnat
    · refine ⟨Int.natCast_nonneg _, ?_⟩
      have hmod : Imm / (2 * E) ^ (q * (2 * E) + E + i) % (2 * E) < 2 * E :=
        Nat.mod_lt _ (by omega)
      have hNE : VT.numElts = VT.numLanes128 * (2 * E) := by
        rw [← hgeom, hE]
      have hnat : Imm / (2 * E) ^ (q * (2 * E) + E + i) % (2 * E)
          + (VT.numElts + q * (2 * E))
          < 2 * (VT.numLanes128 * (2 * E)) := by omega
      exact_mod_cast hnat

theorem unpckh_range (VT : MVT)
    (hgeom : VT.numLanes128OrMMX * (VT.numElts / VT.numLanes128OrMMX)
      = VT.numElts) :
    maskInRange (DecodeUNPCKHMask VT []) := by
  intro x hx
  rw [DecodeUNPCKHMask_eq] at hx ⊢
  right
  rw [List.nil_append] at hx ⊢
  rw [length_flatMap_const
    (c := 2 * (VT.numElts / VT.numLanes128OrMMX
      - VT.numElts / VT.numLanes128OrMMX / 2))
    (by intro q; exact length_flatMap_pair _ _)]
  simp only [List.mem_flatMap, List.mem_range] at hx
  obtain ⟨q, hq, hx⟩ := hx
  obtain ⟨i, hi, hx⟩ := hx
  rw [List.mem_range'] at hi
  have hqle : q * (VT.numElts / VT.numLanes128OrMMX)
      + (VT.numElts / VT.numLanes128OrMMX)
      ≤ VT.numLanes128OrMMX * (VT.numElts / VT.numLanes128OrMMX) := by
    have := Nat.mul_le_mul_right (VT.numElts / VT.numLanes128OrMMX)
      (Nat.succ_le_of_lt hq)
    rw [Nat.succ_mul] at this
    exact this
  have hlen : VT.numLanes128OrMMX * (VT.numElts / VT.numLanes128OrMMX)
      ≤ VT.numLanes128OrMMX * (2 * (VT.numElts / VT.numLanes128OrMMX
        - VT.numElts / VT.numLanes128OrMMX / 2)) :=
    Nat.mul_le_mul_left _ (by omega)
  simp only [List.mem_cons, List.mem_singleton, List.not_mem_nil,
    or_false] at hx
  rcases hx with rfl | rfl
  · refine ⟨Int.natCast_nonneg _, ?_⟩
    have hnat : i < 2 * (VT.numLanes128OrMMX
        * (2 * (VT.numElts / VT.numLanes128OrMMX
          - VT.numElts / VT.numLanes128OrMMX / 2))) := by omega
    exact_mod_cast hnat
  · refine ⟨Int.natCast_nonneg _, ?_⟩
    have hnat : i + VT.numElts < 2 * (VT.numLanes128OrMMX
        * (2 * (VT.numElts / VT.numLanes128OrMMX
          - VT.numElts / VT.numLanes128OrMMX / 2))) := by omega
    exact_mod_cast hnat

theorem unpckl_range (VT : MVT)
    (hgeom : VT.numLanes128OrMMX * (VT.numElts / VT.numLanes128OrMMX)
      = VT.numElts)
    (heven : 2 ∣ (VT.numElts / VT.numLanes128OrMMX)
      ∨ VT.numElts / VT.numLanes128OrMMX = 1) :
    maskInRange (DecodeUNPCKLMask VT []) := by
  intro x hx
  rw [DecodeUNPCKLMask_eq] at hx ⊢
  right
  rw [List.nil_append] at hx ⊢
  rw [length_flatMap_const
    (c := 2 * (VT.numElts / VT.numLanes128OrMMX / 2))
    (by intro q; exact length_flatMap_pair _ _)]
  simp only [List.mem_flatMap, List.mem_range] at hx
  obtain ⟨q, hq, hx⟩ := hx
  obtain ⟨i, hi, hx⟩ := hx
  rw [List.mem_range'] at hi
  rcases heven with ⟨E, hE⟩ | h1
  · have hqle : q * (VT.numElts / VT.numLanes128OrMMX)
        + (VT.numElts / VT.numLanes128OrMMX)
        ≤ VT.numLanes128OrMMX * (VT.numElts / VT.numLanes128OrMMX) := by
      have := Nat.mul_le_mul_right (VT.numElts / VT.numLanes128OrMMX)
        (Nat.succ_le_of_lt hq)
      rw [Nat.succ_mul] at this
      exact this
    have hhalf : 2 * (VT.numElts / VT.numLanes128OrMMX / 2)
        = VT.numElts / VT.numLanes128OrMMX := by omega
    rw [hhalf, hgeom]
    simp only [List.mem_cons, List.mem_singleton, List.not_mem_nil,
      or_false] at hx
    rcases hx with rfl | rfl
    · refine ⟨Int.natCast_nonneg _, ?_⟩
      have hnat : i < 2 * VT.numElts := by omega
      exact_mod_cast hnat
    · refine ⟨Int.natCast_nonneg _, ?_⟩
      have hnat : i + VT.numElts < 2 * VT.numElts := by omega
      exact_mod_cast hnat
  · rw [h1] at hi
    omega

theorem pshufbCDS_range (C : ConstantDataSequential) (m : List Int)
    (hm : DecodePSHUFBMaskCDS C [] = some m) : maskInRange m := by
  rw [DecodePSHUFBMaskCDS_eq] at hm
  split at hm
  case isFalse => exact absurd hm (by simp)
  case isTrue h1 =>
    split at hm
    case isFalse => exact absurd hm (by simp)
    case isTrue h2 =>
      rw [Option.some.injEq] at hm
      subst hm
      intro x hx
      rw [List.nil_append] at hx ⊢
      simp only [List.length_map, List.length_range]
      simp only [List.mem_map, List.mem_range] at hx
      obtain ⟨i, hi, rfl⟩ := hx
      unfold pshufbCDSEntry
      split
      · left; rfl
      · right
        have hok := h2 i (List.mem_range.mpr hi)
        unfold pshufbCDSOk at hok
        rcases hok with hok | hok
        · exact absurd hok (by assumption)
        · refine ⟨Int.natCast_nonneg _, ?_⟩
          have hnat : (if i < 16 then 0 else 16) + C.getElementAsInteger i
              < 2 * C.getNumElements := by omega
          exact_mod_cast hnat

theorem pshufbRaw_range (RawMask : List Nat) (m : List Int)
    (hm : DecodePSHUFBMaskRaw RawMask [] = some m) : maskInRange m := by
  rw [DecodePSHUFBMaskRaw_eq] at hm
  split at hm
  case isFalse => exact absurd hm (by simp)
  case isTrue h2 =>
    rw [Option.some.injEq] at hm
    subst hm
    intro x hx
    rw [List.nil_append] at hx ⊢
    simp only [List.length_map, List.length_range]
    simp only [List.mem_map, List.mem_range] at hx
    obtain ⟨i, hi, rfl⟩ := hx
    unfold pshufbRawEntry
    split
    · left; rfl
    · right
      have hok := h2 i (List.mem_range.mpr hi)
      unfold pshufbRawOk at hok
      rcases hok with hok | hok
      · exact absurd hok (by assumption)
      · refine ⟨Int.natCast_nonneg _, ?_⟩
        have hnat : (if i < 16 then 0 else 16) + RawMask.getD i 0
            < 2 * RawMask.length := by omega
        exact_mod_cast hnat

/-! ### Claims -/

/-- C7 counterexample: on the 8-element, 32-bit-element shape, immediate
`0x20` does NOT produce `[4,5,6,7,0,1,2,3]`: the 2-bit field rule
(`(Imm >> 4l) & 3` selects the quarter for half `l`) selects quarter 0 for
the low half and quarter 2 for the high half. -/
theorem C7_counterexample :
    DecodeVPERM2X128Mask ⟨8, 32⟩ 0x20 [] ≠ [4, 5, 6, 7, 0, 1, 2, 3] := by
  decide

/-- C7 (amended): on an 8-element (256-bit, 32-bit-element) shape, the
cross-lane 128-bit permute decoder applied to immediate `0x20` yields
`[0,1,2,3,8,9,10,11]` per the 2-bit half-select rule; the mask
`[4,5,6,7,0,1,2,3]` named by the claim is produced by immediate `0x01`
instead. -/
theorem C7_vperm2x128_imm0x20 :
    DecodeVPERM2X128Mask ⟨8, 32⟩ 0x20 [] = [0, 1, 2, 3, 8, 9, 10, 11]
    ∧ DecodeVPERM2X128Mask ⟨8, 32⟩ 0x01 [] = [4, 5, 6, 7, 0, 1, 2, 3] := by
  decide

/-- C9 counterexample: for the 64-bit (MMX-sized) shape `v2i32`, the
byte-rotate decoder's lane count `SizeInBits / 128` is `0`, not
`max 1 (SizeInBits / 128) = 1`: only the unpack decoders apply the
MMX collapse. -/
theorem C9_counterexample :
    MVT.numLanes128 ⟨2, 32⟩ ≠ max 1 (MVT.getSizeInBits ⟨2, 32⟩ / 128) := by
  decide

/-- C9 (amended): only the unpack-high/low decoders derive the lane count as
`max 1 (TotalBits/128)` (so their division `NumElts / NumLanes` never
divides by zero); the align, generic permute-by-immediate and
shuffle-and-pack decoders use the unguarded `TotalBits/128`, which is `0`
for vectors narrower than 128 bits. -/
theorem C9_lane_geometry (VT : MVT) :
    MVT.numLanes128OrMMX VT = max 1 (VT.getSizeInBits / 128)
    ∧ 0 < MVT.numLanes128OrMMX VT
    ∧ (VT.getSizeInBits < 128 →
        MVT.numLanes128 VT = 0 ∧ MVT.numLanes128OrMMX VT = 1) := by
  refine ⟨?_, ?_, ?_⟩
  · by_cases h : VT.getSizeInBits / 128 = 0
    · simp [MVT.numLanes128OrMMX, h]
    · simp only [MVT.numLanes128OrMMX, if_neg h]
      omega
  · unfold MVT.numLanes128OrMMX
    by_cases h : VT.getSizeInBits / 128 = 0
    · rw [if_pos h]
      omega
    · rw [if_neg h]
      omega
  · intro hlt
    have h0 : VT.getSizeInBits / 128 = 0 := Nat.div_eq_of_lt hlt
    exact ⟨h0, by simp [MVT.numLanes128OrMMX, h0]⟩

/-- C9 witness: the amended claim evaluated on the 64-bit shape `v2i32`. -/
theorem C9_witness :
    MVT.numLanes128OrMMX ⟨2, 32⟩ = max 1 (MVT.getSizeInBits ⟨2, 32⟩ / 128)
    ∧ MVT.numLanes128 ⟨2, 32⟩ = 0 ∧ MVT.numLanes128OrMMX ⟨2, 32⟩ = 1 :=
  ⟨(C9_lane_geometry ⟨2, 32⟩).1, (C9_lane_geometry ⟨2, 32⟩).2.2 (by decide)⟩

/-- C3 counterexample: `Imm = 0` does NOT yield the untouched identity
`[0,1,2,3]`: the insert of `4 + CountS` at position `CountD` is
unconditional, so `Imm = 0` (CountD = 0, CountS = 0, ZMask = 0) yields
`[4,1,2,3]`. -/
theorem C3_counterexample :
    DecodeINSERTPSMask 0 [] = [4, 1, 2, 3]
    ∧ DecodeINSERTPSMask 0 [] ≠ [0, 1, 2, 3] := by
  decide

set_option maxRecDepth 8000 in
/-- C3 (amended): for every 8-bit immediate, `DecodeINSERTPSMask` produces
the identity `[0,1,2,3]` with position `CountD` replaced by `4 + CountS`,
then position `k` replaced by the zero sentinel for every bit `k` set in
`ZMask` (overriding the insert); `ZMask = 0b1111` yields all-sentinel, and a
`ZMask` bit at position `CountD` makes that position the sentinel. The one
corrected particular: `Imm = 0` yields `[4,1,2,3]`, not `[0,1,2,3]` — the
insert always happens (see the counterexample). -/
theorem C3_insertps (Imm : Nat) (h : Imm < 256) :
    DecodeINSERTPSMask Imm []
      = (List.range 4).map (fun k =>
          if (Imm &&& 15) &&& (1 <<< k) ≠ 0 then SM_SentinelZero
          else if k = (Imm >>> 4) &&& 3
            then ((4 + ((Imm >>> 6) &&& 3) : Nat) : Int)
            else ((k : Nat) : Int))
    ∧ (Imm &&& 15 = 15 →
        DecodeINSERTPSMask Imm []
          = [SM_SentinelZero, SM_SentinelZero, SM_SentinelZero,
             SM_SentinelZero])
    ∧ ((Imm &&& 15) &&& (1 <<< ((Imm >>> 4) &&& 3)) ≠ 0 →
        (DecodeINSERTPSMask Imm [])[(Imm >>> 4) &&& 3]?
          = some SM_SentinelZero) := by
  revert Imm
  decide

/-- C3 witness: the amended claim evaluated at `Imm = 0x41`
(`CountD = 0`, `ZMask = 0b0001`): position 0 is the sentinel, not the
inserted index. -/
theorem C3_insertps_witness :
    DecodeINSERTPSMask 0x41 []
      = (List.range 4).map (fun k =>
          if (0x41 &&& 15) &&& (1 <<< k) ≠ 0 then SM_SentinelZero
          else if k = (0x41 >>> 4) &&& 3
            then ((4 + ((0x41 >>> 6) &&& 3) : Nat) : Int)
            else ((k : Nat) : Int))
    ∧ (DecodeINSERTPSMask 0x41 [])[(0x41 >>> 4) &&& 3]?
        = some SM_SentinelZero :=
  ⟨(C3_insertps 0x41 (by decide)).1,
   (C3_insertps 0x41 (by decide)).2.2 (by decide)⟩

/-- C2: `DecodeVPERM2X128Mask` produces the empty mask iff bit 3 or bit 7 of
the immediate is set (`Imm & 0x88` nonzero); any other immediate produces a
fully-populated mask of length equal to the vector's element count. (The
hypotheses say the shape is a genuine two-half vector: a positive, even
element count.) -/
theorem C2_vperm2x128_empty (VT : MVT) (Imm : Nat)
    (h2 : 2 ∣ VT.numElts) (h0 : 0 < VT.numElts) :
    (DecodeVPERM2X128Mask VT Imm [] = [] ↔ Imm &&& 0x88 ≠ 0)
    ∧ (Imm &&& 0x88 = 0 →
        (DecodeVPERM2X128Mask VT Imm []).length = VT.numElts) := by
  rw [DecodeVPERM2X128Mask_eq]
  by_cases hc : Imm &&& 0x88 ≠ 0
  · rw [if_pos hc]
    exact ⟨⟨fun _ => hc, fun _ => rfl⟩, fun h => (hc h).elim⟩
  · rw [if_neg hc]
    have hlen : (([] : List Int) ++ (List.range 2).flatMap (fun l =>
        (List.range' (((Imm >>> (l * 4)) &&& 0x3) * (VT.numElts / 2))
          (VT.numElts / 2)).map (fun i => ((i : Nat) : Int)))).length
        = VT.numElts := by
      rw [List.nil_append,
        length_flatMap_const (c := VT.numElts / 2) (by intro q; simp)]
      omega
    constructor
    · constructor
      · intro hemp
        have := congrArg List.length hemp
        rw [hlen] at this
        simp at this
        omega
      · intro h
        exact absurd h hc
    · intro _
      exact hlen

/-- C2 witness: evaluated on the 8-element 256-bit shape with immediates
`0x08` (empty) and via the length part at `0x20`. -/
theorem C2_witness :
    (DecodeVPERM2X128Mask ⟨8, 32⟩ 0x08 [] = [] ↔ (0x08 : Nat) &&& 0x88 ≠ 0)
    ∧ ((0x20 : Nat) &&& 0x88 = 0 →
        (DecodeVPERM2X128Mask ⟨8, 32⟩ 0x20 []).length = (8 : Nat)) :=
  ⟨(C2_vperm2x128_empty ⟨8, 32⟩ 0x08 (by decide) (by decide)).1,
   (C2_vperm2x128_empty ⟨8, 32⟩ 0x20 (by decide) (by decide)).2⟩

/-- C4 counterexample: on the 8-element 16-bit-element shape with `Imm = 1`,
the decoder adds the raw byte offset `Imm * elementByteSize = 2` to each
index, while the spec's formula `i + Offset/elementSize` adds `1`: the two
disagree on every entry. -/
theorem C4_counterexample :
    DecodePALIGNRMask ⟨8, 16⟩ 1 [] ≠ DecodePALIGNRMaskSpecText ⟨8, 16⟩ 1
    ∧ DecodePALIGNRMask ⟨8, 16⟩ 1 [] = [2, 3, 4, 5, 6, 7, 8, 9]
    ∧ DecodePALIGNRMaskSpecText ⟨8, 16⟩ 1 = [1, 2, 3, 4, 5, 6, 7, 8] := by
  decide

/-- C4 (amended): within each 128-bit lane independently, the byte-rotate
decoder assigns destination lane `i` the source index `i + Offset` — the
byte offset `Offset = Imm * elementByteSize` added directly as an element
index, NOT `i + Offset/elementSize`; when that reaches the lane width it
wraps by adding `NumElts - NumLaneElts` (subtract the lane width, add the
global element count), and the lane's base offset is added back
(`palignrEntry`). The spec's `i + Offset/elementSize` description agrees
with the code exactly when elements are bytes. -/
theorem C4_palignr (VT : MVT) (Imm : Nat) :
    DecodePALIGNRMask VT Imm []
      = (List.range VT.numLanes128).flatMap (fun q =>
          (List.range (VT.numElts / VT.numLanes128)).map
            (palignrEntry (Imm * (VT.eltBits / 8)) VT.numElts
              (VT.numElts / VT.numLanes128)
              (q * (VT.numElts / VT.numLanes128))))
    ∧ (VT.eltBits = 8 →
        DecodePALIGNRMask VT Imm [] = DecodePALIGNRMaskSpecText VT Imm) := by
  constructor
  · rw [DecodePALIGNRMask_eq, List.nil_append]
  · intro h8
    rw [DecodePALIGNRMask_eq, DecodePALIGNRMaskSpecText_eq, List.nil_append,
      h8]
    norm_num

/-- C4 witness: on the byte-element shape `v16i8` the code and the spec's
formula agree. -/
theorem C4_witness :
    DecodePALIGNRMask ⟨16, 8⟩ 3 [] = DecodePALIGNRMaskSpecText ⟨16, 8⟩ 3 :=
  (C4_palignr ⟨16, 8⟩ 3).2 rfl

set_option maxRecDepth 8000 in
theorem byte_and127 : ∀ e : Nat, e < 256 →
    (e &&& (1 <<< 7) = 0 → e &&& 127 = e) := by
  decide

set_option maxRecDepth 8000 in
theorem and127_small : ∀ e : Nat, e < 128 → e &&& 127 = e := by
  decide

theorem getD_lt_256 (RawMask : List Nat) (h256 : ∀ e ∈ RawMask, e < 256)
    (i : Nat) : RawMask.getD i 0 < 256 := by
  by_cases hi : i < RawMask.length
  · rw [List.getD_eq_getElem _ _ hi]
    exact h256 _ (List.getElem_mem hi)
  · rw [List.getD_eq_default _ _ (by omega)]
    omega

/-- C5: for every output position `i` of both byte-table decoders, on inputs
they accept (the `assert`s pass; entries are byte values): bit 7 of the
table entry set forces the zero sentinel regardless of the other bits;
otherwise the emitted index is the entry's low 7 bits plus a base of 0 for
`i < 16` and 16 for `i ≥ 16`. On a 32-entry table, entry value 5 at
position 20 yields index 21 and at position 2 yields index 5. -/
theorem C5_pshufb :
    (∀ (C : ConstantDataSequential) (m : List Int),
        DecodePSHUFBMaskCDS C [] = some m →
        ∀ i, i < m.length →
          m[i]? = some (if C.getElementAsInteger i &&& (1 <<< 7) ≠ 0
            then SM_SentinelZero
            else (((if i < 16 then 0 else 16)
              + (C.getElementAsInteger i &&& 127) : Nat) : Int)))
    ∧ (∀ (RawMask : List Nat) (m : List Int),
        (∀ e ∈ RawMask, e < 256) →
        DecodePSHUFBMaskRaw RawMask [] = some m →
        ∀ i, i < m.length →
          m[i]? = some (if RawMask.getD i 0 &&& (1 <<< 7) ≠ 0
            then SM_SentinelZero
            else (((if i < 16 then 0 else 16)
              + (RawMask.getD i 0 &&& 127) : Nat) : Int)))
    ∧ (∀ (RawMask : List Nat) (m : List Int),
        RawMask.length = 32 →
        DecodePSHUFBMaskRaw RawMask [] = some m →
        (RawMask.getD 20 0 = 5 → m[20]? = some 21)
        ∧ (RawMask.getD 2 0 = 5 → m[2]? = some 5)) := by
  refine ⟨?_, ?_, ?_⟩
  · intro C m hm i hi
    rw [DecodePSHUFBMaskCDS_eq] at hm
    split at hm
    case isFalse => exact absurd hm (by simp)
    case isTrue h1 =>
      split at hm
      case isFalse => exact absurd hm (by simp)
      case isTrue h2 =>
        rw [Option.some.injEq] at hm
        subst hm
        rw [List.nil_append] at hi ⊢
        rw [List.length_map, List.length_range] at hi
        rw [List.getElem?_map, List.getElem?_range hi]
        simp only [Option.map_some']
        have helt : C.getElementAsInteger i < 256 := by
          unfold ConstantDataSequential.getElementAsInteger
          rw [h1.1]
          exact Nat.mod_lt _ (by norm_num)
        unfold pshufbCDSEntry
        by_cases h7 : C.getElementAsInteger i &&& (1 <<< 7) ≠ 0
        · rw [if_pos h7, if_pos h7]
        · rw [if_neg h7, if_neg h7,
            byte_and127 _ helt (by omega)]
  · intro RawMask m h256 hm i hi
    rw [DecodePSHUFBMaskRaw_eq] at hm
    split at hm
    case isFalse => exact absurd hm (by simp)
    case isTrue h2 =>
      rw [Option.some.injEq] at hm
      subst hm
      rw [List.nil_append] at hi ⊢
      rw [List.length_map, List.length_range] at hi
      rw [List.getElem?_map, List.getElem?_range hi]
      simp only [Option.map_some']
      have helt : RawMask.getD i 0 < 256 := getD_lt_256 RawMask h256 i
      unfold pshufbRawEntry
      by_cases h7 : RawMask.getD i 0 &&& (1 <<< 7) ≠ 0
      · rw [if_pos h7, if_pos h7]
      · rw [if_neg h7, if_neg h7, byte_and127 _ helt (by omega)]
  · intro RawMask m h32 hm
    rw [DecodePSHUFBMaskRaw_eq] at hm
    split at hm
    case isFalse => exact absurd hm (by simp)
    case isTrue h2 =>
      rw [Option.some.injEq] at hm
      subst hm
      rw [List.nil_append, h32]
      constructor
      · intro h5
        rw [List.getElem?_map, List.getElem?_range (by omega)]
        simp only [Option.map_some']
        unfold pshufbRawEntry
        rw [h5]
        decide
      · intro h5
        rw [List.getElem?_map, List.getElem?_range (by omega)]
        simp only [Option.map_some']
        unfold pshufbRawEntry
        rw [h5]
        decide

/-- C5 witness: the per-position rule evaluated at position 0 of an
all-zero 16-entry constant table. -/
theorem C5_witness :
    (List.replicate 16 (0 : Int))[0]?
      = some (if (⟨8, List.replicate 16 0⟩ :
            ConstantDataSequential).getElementAsInteger 0 &&& (1 <<< 7) ≠ 0
          then SM_SentinelZero
          else (((if (0 : Nat) < 16 then 0 else 16)
            + ((⟨8, List.replicate 16 0⟩ :
                ConstantDataSequential).getElementAsInteger 0 &&& 127)
            : Nat) : Int)) :=
  C5_pshufb.1 ⟨8, List.replicate 16 0⟩ (List.replicate 16 (0 : Int))
    (by decide) 0 (by decide)

/-- C6 counterexample: a 32-entry constant table with entry 20 at output
position 0 is accepted by the decoder (the index 20 passes the
`< NumElements` assert), and the emitted non-sentinel index 20 at a
position `< 16` does NOT lie in the lower half `[0, 16)`. -/
theorem C6_counterexample :
    DecodePSHUFBMaskCDS ⟨8, 20 :: List.replicate 31 0⟩ []
      = some ((20 : Int) :: (List.replicate 15 (0 : Int)
          ++ List.replicate 16 (16 : Int)))
    ∧ ¬((20 : Int) = SM_SentinelZero
        ∨ ((0 : Int) ≤ 20 ∧ (20 : Int) < 16)) := by
  decide

/-- C6 (amended): for either byte-table decoder on an accepted 32-entry
table, a non-sentinel index emitted at a position `i ≥ 16` lies in
`[16, 32)` (the assert forces the entry below 16); at a position `i < 16`
it lies in `[0, 32)` but NOT necessarily in `[0, 16)`: it lies in the lower
half exactly when the entry's low 7 bits are below 16. -/
theorem C6_pshufb_halves :
    (∀ (C : ConstantDataSequential) (m : List Int),
        DecodePSHUFBMaskCDS C [] = some m → C.getNumElements = 32 →
        ∀ i x, m[i]? = some x → x ≠ SM_SentinelZero →
          ((16 ≤ i → (16 : Int) ≤ x ∧ x < 32)
            ∧ (i < 16 → (0 : Int) ≤ x ∧ x < 32
                ∧ (x < 16 ↔ C.getElementAsInteger i &&& 127 < 16))))
    ∧ (∀ (RawMask : List Nat) (m : List Int),
        DecodePSHUFBMaskRaw RawMask [] = some m → RawMask.length = 32 →
        ∀ i x, m[i]? = some x → x ≠ SM_SentinelZero →
          ((16 ≤ i → (16 : Int) ≤ x ∧ x < 32)
            ∧ (i < 16 → (0 : Int) ≤ x ∧ x < 32
                ∧ (x < 16 ↔ RawMask.getD i 0 &&& 127 < 16)))) := by
  constructor
  · intro C m hm h32 i x hmx hxs
    rw [DecodePSHUFBMaskCDS_eq] at hm
    split at hm
    case isFalse => exact absurd hm (by simp)
    case isTrue h1 =>
      split at hm
      case isFalse => exact absurd hm (by simp)
      case isTrue h2 =>
        rw [Option.some.injEq] at hm
        subst hm
        rw [List.nil_append] at hmx
        have hi : i < C.getNumElements := by
          by_contra hni
          rw [List.getElem?_eq_none (by simpa using Nat.le_of_not_lt hni)]
            at hmx
          exact Option.noConfusion hmx
        rw [List.getElem?_map, List.getElem?_range hi,
          Option.map_some'] at hmx
        rw [Option.some.injEq] at hmx
        subst hmx
        unfold pshufbCDSEntry at hxs ⊢
        by_cases h7 : C.getElementAsInteger i &&& (1 <<< 7) ≠ 0
        · rw [if_pos h7] at hxs
          exact absurd rfl hxs
        · rw [if_neg h7]
          have hok := h2 i (List.mem_range.mpr hi)
          unfold pshufbCDSOk at hok
          rcases hok with hok | hok
          · exact absurd hok h7
          · rw [h32] at hok
            constructor
            · intro h16
              rw [if_neg (by omega)] at hok ⊢
              constructor
              · exact_mod_cast Nat.le_add_right 16 _
              · exact_mod_cast hok
            · intro h16
              rw [if_pos h16] at hok ⊢
              have hsm : C.getElementAsInteger i &&& 127
                  = C.getElementAsInteger i :=
                and127_small _ (by omega)
              refine ⟨Int.natCast_nonneg _, by exact_mod_cast hok, ?_⟩
              rw [hsm]
              constructor
              · intro hlt
                have : (0 : Nat) + C.getElementAsInteger i < 16 := by
                  exact_mod_cast hlt
                omega
              · intro hlt
                have : (0 : Nat) + C.getElementAsInteger i < 16 := by omega
                exact_mod_cast this
  · intro RawMask m hm h32 i x hmx hxs
    rw [DecodePSHUFBMaskRaw_eq] at hm
    split at hm
    case isFalse => exact absurd hm (by simp)
    case isTrue h2 =>
      rw [Option.some.injEq] at hm
      subst hm
      rw [List.nil_append] at hmx
      have hi : i < RawMask.length := by
        by_contra hni
        rw [List.getElem?_eq_none (by simpa using Nat.le_of_not_lt hni)]
          at hmx
        exact Option.noConfusion hmx
      rw [List.getElem?_map, List.getElem?_range hi,
        Option.map_some'] at hmx
      rw [Option.some.injEq] at hmx
      subst hmx
      unfold pshufbRawEntry at hxs ⊢
      by_cases h7 : RawMask.getD i 0 &&& (1 <<< 7) ≠ 0
      · rw [if_pos h7] at hxs
        exact absurd rfl hxs
      · rw [if_neg h7]
        have hok := h2 i (List.mem_range.mpr hi)
        unfold pshufbRawOk at hok
        rcases hok with hok | hok
        · exact absurd hok h7
        · rw [h32] at hok
          constructor
          · intro h16
            rw [if_neg (by omega)] at hok ⊢
            constructor
            · exact_mod_cast Nat.le_add_right 16 _
            · exact_mod_cast hok
          · intro h16
            rw [if_pos h16] at hok ⊢
            have hsm : RawMask.getD i 0 &&& 127 = RawMask.getD i 0 :=
              and127_small _ (by omega)
            refine ⟨Int.natCast_nonneg _, by exact_mod_cast hok, ?_⟩
            rw [hsm]
            constructor
            · intro hlt
              have : (0 : Nat) + RawMask.getD i 0 < 16 := by
                exact_mod_cast hlt
              omega
            · intro hlt
              have : (0 : Nat) + RawMask.getD i 0 < 16 := by omega
              exact_mod_cast this

/-- C6 witness: the half bounds evaluated at position 16 of the accepted
32-entry table from the counterexample. -/
theorem C6_witness : (16 : Int) ≤ 16 ∧ (16 : Int) < 32 :=
  (C6_pshufb_halves.1 ⟨8, 20 :: List.replicate 31 0⟩
    ((20 : Int) :: (List.replicate 15 (0 : Int)
      ++ List.replicate 16 (16 : Int)))
    (by decide) (by decide) 16 16 (by decide) (by decide)).1 (by omega)

/-- C1 counterexample: the byte-rotate decoder accepts every 8-bit
immediate, but on `v16i8` with `Imm = 17` it pushes the index 32 (entries
`17..32`), which is outside `[0, 2*16)`: the index range invariant does not
hold for every accepted input of every decoder. -/
theorem C1_counterexample :
    ¬ maskInRange (DecodePALIGNRMask ⟨16, 8⟩ 17 []) := by
  decide

/-- C1 (amended): every non-sentinel entry lies in `[0, 2*length)` for every
decoder of the core on the shapes it accepts (consistent lane geometry: the
lane count times the per-lane element count is the element count, and an
even per-lane count where a decoder splits lanes in half) — EXCEPT the
byte-rotate decoder, for which the invariant additionally requires the
scaled offset `Imm * elementByteSize` to be at most the lane width (the
counterexample shows it fails otherwise). -/
theorem C1_index_range :
    (∀ Imm : Nat, Imm < 256 → maskInRange (DecodeINSERTPSMask Imm []))
    ∧ (∀ NElts : Nat, maskInRange (DecodeMOVHLPSMask NElts []))
    ∧ (∀ NElts : Nat, maskInRange (DecodeMOVLHPSMask NElts []))
    ∧ (∀ (VT : MVT) (Imm : Nat),
        VT.numLanes128 * (VT.numElts / VT.numLanes128) = VT.numElts →
        Imm * (VT.eltBits / 8) ≤ VT.numElts / VT.numLanes128 →
        maskInRange (DecodePALIGNRMask VT Imm []))
    ∧ (∀ (VT : MVT) (Imm : Nat), maskInRange (DecodePSHUFMask VT Imm []))
    ∧ (∀ (VT : MVT) (Imm : Nat), maskInRange (DecodePSHUFHWMask VT Imm []))
    ∧ (∀ (VT : MVT) (Imm : Nat), maskInRange (DecodePSHUFLWMask VT Imm []))
    ∧ (∀ (VT : MVT) (Imm : Nat),
        VT.numLanes128 * (VT.numElts / VT.numLanes128) = VT.numElts →
        2 ∣ (VT.numElts / VT.numLanes128) →
        maskInRange (DecodeSHUFPMask VT Imm []))
    ∧ (∀ VT : MVT,
        VT.numLanes128OrMMX * (VT.numElts / VT.numLanes128OrMMX)
          = VT.numElts →
        maskInRange (DecodeUNPCKHMask VT []))
    ∧ (∀ VT : MVT,
        VT.numLanes128OrMMX * (VT.numElts / VT.numLanes128OrMMX)
          = VT.numElts →
        (2 ∣ (VT.numElts / VT.numLanes128OrMMX)
          ∨ VT.numElts / VT.numLanes128OrMMX = 1) →
        maskInRange (DecodeUNPCKLMask VT []))
    ∧ (∀ (VT : MVT) (Imm : Nat),
        maskInRange (DecodeVPERM2X128Mask VT Imm []))
    ∧ (∀ (C : ConstantDataSequential) (m : List Int),
        DecodePSHUFBMaskCDS C [] = some m → maskInRange m)
    ∧ (∀ (RawMask : List Nat) (m : List Int),
        DecodePSHUFBMaskRaw RawMask [] = some m → maskInRange m)
    ∧ (∀ (VT : MVT) (Imm : Nat), maskInRange (DecodeBLENDMask VT Imm []))
    ∧ (∀ Imm : Nat, maskInRange (DecodeVPERMMask Imm [])) :=
  ⟨insertps_range, movhlps_range, movlhps_range, palignr_range, pshuf_range,
   pshufhw_range, pshuflw_range, shufp_range, unpckh_range, unpckl_range,
   vperm2x128_range, pshufbCDS_range, pshufbRaw_range, blend_range,
   vperm_range⟩

/-- C1 witness: the range invariant evaluated on concrete accepted inputs
of each decoder whose conjunct carries hypotheses. -/
theorem C1_witness :
    maskInRange (DecodeINSERTPSMask 0 [])
    ∧ maskInRange (DecodePALIGNRMask ⟨16, 8⟩ 5 [])
    ∧ maskInRange (DecodeSHUFPMask ⟨4, 32⟩ 27 [])
    ∧ maskInRange (DecodeUNPCKHMask ⟨4, 32⟩ [])
    ∧ maskInRange (DecodeUNPCKLMask ⟨4, 32⟩ [])
    ∧ maskInRange (List.replicate 16 (0 : Int)) :=
  ⟨C1_index_range.1 0 (by decide),
   C1_index_range.2.2.2.1 ⟨16, 8⟩ 5 (by decide) (by decide),
   C1_index_range.2.2.2.2.2.2.2.1 ⟨4, 32⟩ 27 (by decide) (by decide),
   C1_index_range.2.2.2.2.2.2.2.2.1 ⟨4, 32⟩ (by decide),
   C1_index_range.2.2.2.2.2.2.2.2.2.1 ⟨4, 32⟩ (by decide) (by decide),
   C1_index_range.2.2.2.2.2.2.2.2.2.2.2.2.1 (List.replicate 16 0)
     (List.replicate 16 (0 : Int)) (by decide)⟩

/-- C8: in `DecodePSHUFMask` and `DecodeSHUFPMask`, when the per-128-bit-lane
element count is exactly 4 the working immediate is reloaded from the
original at every lane boundary, so each lane's entries depend only on the
intra-lane position (`Imm / 4^i`, the same 8-bit field re-read per lane)
plus the lane base; for any other lane width the immediate drains across
lane boundaries without reload, so the divisor exponent grows with the
global position (`Imm / LE^(q*LE + i)`). -/
theorem C8_imm_reload_vs_drain (VT : MVT) (Imm : Nat) :
    (VT.numElts / VT.numLanes128 = 4 →
      DecodePSHUFMask VT Imm []
        = (List.range VT.numLanes128).flatMap (fun q =>
            (List.range 4).map (fun i =>
              ((Imm / 4 ^ i % 4 + q * 4 : Nat) : Int)))
      ∧ DecodeSHUFPMask VT Imm []
        = (List.range VT.numLanes128).flatMap (fun q =>
            (List.range 2).map (fun i =>
              ((Imm / 4 ^ i % 4 + q * 4 : Nat) : Int))
            ++ (List.range 2).map (fun i =>
              ((Imm / 4 ^ (2 + i) % 4 + (VT.numElts + q * 4) : Nat) : Int))))
    ∧ (VT.numElts / VT.numLanes128 ≠ 4 →
      DecodePSHUFMask VT Imm []
        = (List.range VT.numLanes128).flatMap (fun q =>
            (List.range (VT.numElts / VT.numLanes128)).map (fun i =>
              ((Imm / (VT.numElts / VT.numLanes128)
                    ^ (q * (VT.numElts / VT.numLanes128) + i)
                  % (VT.numElts / VT.numLanes128)
                  + q * (VT.numElts / VT.numLanes128) : Nat) : Int)))
      ∧ (∀ E : Nat, VT.numElts / VT.numLanes128 = 2 * E →
          DecodeSHUFPMask VT Imm []
            = (List.range VT.numLanes128).flatMap (fun q =>
                (List.range E).map (fun i =>
                  ((Imm / (2 * E) ^ (q * (2 * E) + i) % (2 * E)
                    + q * (2 * E) : Nat) : Int))
                ++ (List.range E).map (fun i =>
                  ((Imm / (2 * E) ^ (q * (2 * E) + E + i) % (2 * E)
                    + (VT.numElts + q * (2 * E)) : Nat) : Int))))) := by
  constructor
  · intro h4
    exact ⟨by rw [DecodePSHUFMask_reload_eq _ _ _ h4, List.nil_append],
           by rw [DecodeSHUFPMask_reload_eq _ _ _ h4, List.nil_append]⟩
  · intro hne
    refine ⟨by rw [DecodePSHUFMask_drain_eq _ _ _ hne, List.nil_append], ?_⟩
    intro E hE
    rw [DecodeSHUFPMask_drain_eq _ _ _ E hE hne, List.nil_append]

/-- C8 witness: the reload form on `v8f32` (two 4-element lanes) and the
drain forms on `v4i64` (two 2-element lanes), at immediate 27. -/
theorem C8_witness :
    DecodePSHUFMask ⟨8, 32⟩ 27 []
      = (List.range (MVT.numLanes128 ⟨8, 32⟩)).flatMap (fun q =>
          (List.range 4).map (fun i =>
            ((27 / 4 ^ i % 4 + q * 4 : Nat) : Int)))
    ∧ DecodePSHUFMask ⟨4, 64⟩ 27 []
      = (List.range (MVT.numLanes128 ⟨4, 64⟩)).flatMap (fun q =>
          (List.range (MVT.numElts ⟨4, 64⟩ / MVT.numLanes128 ⟨4, 64⟩)).map
            (fun i =>
              ((27 / (MVT.numElts ⟨4, 64⟩ / MVT.numLanes128 ⟨4, 64⟩)
                    ^ (q * (MVT.numElts ⟨4, 64⟩ / MVT.numLanes128 ⟨4, 64⟩)
                      + i)
                  % (MVT.numElts ⟨4, 64⟩ / MVT.numLanes128 ⟨4, 64⟩)
                  + q * (MVT.numElts ⟨4, 64⟩ / MVT.numLanes128 ⟨4, 64⟩)
                : Nat) : Int)))
    ∧ DecodeSHUFPMask ⟨4, 64⟩ 27 []
      = (List.range (MVT.numLanes128 ⟨4, 64⟩)).flatMap (fun q =>
          (List.range 1).map (fun i =>
            ((27 / (2 * 1) ^ (q * (2 * 1) + i) % (2 * 1)
              + q * (2 * 1) : Nat) : Int))
          ++ (List.range 1).map (fun i =>
            ((27 / (2 * 1) ^ (q * (2 * 1) + 1 + i) % (2 * 1)
              + (MVT.numElts ⟨4, 64⟩ + q * (2 * 1)) : Nat) : Int))) :=
  ⟨((C8_imm_reload_vs_drain ⟨8, 32⟩ 27).1 (by decide)).1,
   ((C8_imm_reload_vs_drain ⟨4, 64⟩ 27).2 (by decide)).1,
   ((C8_imm_reload_vs_drain ⟨4, 64⟩ 27).2 (by decide)).2 1 (by decide)⟩

/-! ### Frame effect: append-only decoders vs the insert decoder's
absolute writes -/

theorem set4_append {m : List Int} (l2 : List Int) (j : Nat) (x : Int)
    (hj : j < 4) (hm : 4 ≤ m.length) :
    (m ++ l2).set j x = m.set j x ++ l2 :=
  List.set_append_left _ _ (by omega)

theorem DecodeINSERTPSMask_eq_writes (Imm : Nat) (prev : List Int) :
    DecodeINSERTPSMask Imm prev = insertpsWrites Imm (prev ++ [0, 1, 2, 3]) := by
  simp only [DecodeINSERTPSMask, insertpsWrites, List.push]
  simp [List.append_assoc]

theorem setIf_append (c : Prop) [Decidable c] {m : List Int}
    (l2 : List Int) (j : Nat) (x : Int) (hj : j < 4) (hm : 4 ≤ m.length) :
    (if c then (m ++ l2).set j x else m ++ l2)
      = (if c then m.set j x else m) ++ l2 := by
  split
  · exact set4_append l2 j x hj hm
  · rfl

theorem length_setIf (c : Prop) [Decidable c] (m : List Int) (j : Nat)
    (x : Int) : (if c then m.set j x else m).length = m.length := by
  split <;> simp

theorem insertpsWrites_append (Imm : Nat) (m l2 : List Int)
    (hm : 4 ≤ m.length) :
    insertpsWrites Imm (m ++ l2) = insertpsWrites Imm m ++ l2 := by
  have hD4 : (Imm >>> 4) &&& 3 < 4 := by
    have : (Imm >>> 4) &&& 3 ≤ 3 := Nat.and_le_right
    omega
  simp only [insertpsWrites]
  rw [set4_append l2 _ _ hD4 hm]
  rw [setIf_append _ l2 0 _ (by norm_num)
    (by simp only [List.length_set]; exact hm)]
  rw [setIf_append _ l2 1 _ (by norm_num)
    (by simp only [length_setIf, List.length_set]; exact hm)]
  rw [setIf_append _ l2 2 _ (by norm_num)
    (by simp only [length_setIf, List.length_set]; exact hm)]
  rw [setIf_append _ l2 3 _ (by norm_num)
    (by simp only [length_setIf, List.length_set]; exact hm)]

theorem pshufLanes_fst_append (LE Imm : Nat) :
    ∀ (qs : List Nat) (acc : List Int) (imm : Nat),
      (pshufLanes LE Imm qs (acc, imm)).1
        = acc ++ (pshufLanes LE Imm qs ([], imm)).1 := by
  intro qs
  induction qs with
  | nil => intro acc imm; simp [pshufLanes]
  | cons q qs ih =>
    intro acc imm
    simp only [pshufLanes, pshufInner_eq, List.nil_append]
    rw [ih]
    conv_rhs => rw [ih]
    simp [List.append_assoc]

theorem shufpLanes_fst_append (LE NE Imm : Nat) :
    ∀ (qs : List Nat) (acc : List Int) (imm : Nat),
      (shufpLanes LE NE Imm qs (acc, imm)).1
        = acc ++ (shufpLanes LE NE Imm qs ([], imm)).1 := by
  intro qs
  induction qs with
  | nil => intro acc imm; simp [shufpLanes]
  | cons q qs ih =>
    intro acc imm
    simp only [shufpLanes, pshufInner_eq, List.nil_append]
    rw [ih]
    conv_rhs => rw [ih]
    simp [List.append_assoc]

/-- C10: every decoder except the insert-lane decoder only appends to the
caller-supplied container, leaving pre-existing entries unchanged; the
insert-lane decoder alone writes through absolute positions 0..3 of the
container, so on a container holding at least 4 entries the writes modify
the pre-existing entries and the freshly appended `[0,1,2,3]` identity
survives untouched at the tail — and its documented (fresh-container)
result is not produced on a non-empty container. -/
theorem C10_frame_effect :
    (∀ (NElts : Nat) (prev : List Int),
        DecodeMOVHLPSMask NElts prev = prev ++ DecodeMOVHLPSMask NElts [])
    ∧ (∀ (NElts : Nat) (prev : List Int),
        DecodeMOVLHPSMask NElts prev = prev ++ DecodeMOVLHPSMask NElts [])
    ∧ (∀ (VT : MVT) (Imm : Nat) (prev : List Int),
        DecodePALIGNRMask VT Imm prev = prev ++ DecodePALIGNRMask VT Imm [])
    ∧ (∀ (VT : MVT) (Imm : Nat) (prev : List Int),
        DecodePSHUFMask VT Imm prev = prev ++ DecodePSHUFMask VT Imm [])
    ∧ (∀ (VT : MVT) (Imm : Nat) (prev : List Int),
        DecodePSHUFHWMask VT Imm prev = prev ++ DecodePSHUFHWMask VT Imm [])
    ∧ (∀ (VT : MVT) (Imm : Nat) (prev : List Int),
        DecodePSHUFLWMask VT Imm prev = prev ++ DecodePSHUFLWMask VT Imm [])
    ∧ (∀ (VT : MVT) (Imm : Nat) (prev : List Int),
        DecodeSHUFPMask VT Imm prev = prev ++ DecodeSHUFPMask VT Imm [])
    ∧ (∀ (VT : MVT) (prev : List Int),
        DecodeUNPCKHMask VT prev = prev ++ DecodeUNPCKHMask VT [])
    ∧ (∀ (VT : MVT) (prev : List Int),
        DecodeUNPCKLMask VT prev = prev ++ DecodeUNPCKLMask VT [])
    ∧ (∀ (VT : MVT) (Imm : Nat) (prev : List Int),
        DecodeVPERM2X128Mask VT Imm prev
          = prev ++ DecodeVPERM2X128Mask VT Imm [])
    ∧ (∀ (C : ConstantDataSequential) (prev : List Int),
        DecodePSHUFBMaskCDS C prev
          = (DecodePSHUFBMaskCDS C []).map (fun t => prev ++ t))
    ∧ (∀ (RawMask : List Nat) (prev : List Int),
        DecodePSHUFBMaskRaw RawMask prev
          = (DecodePSHUFBMaskRaw RawMask []).map (fun t => prev ++ t))
    ∧ (∀ (VT : MVT) (Imm : Nat) (prev : List Int),
        DecodeBLENDMask VT Imm prev = prev ++ DecodeBLENDMask VT Imm [])
    ∧ (∀ (Imm : Nat) (prev : List Int),
        DecodeVPERMMask Imm prev = prev ++ DecodeVPERMMask Imm [])
    ∧ (∀ (Imm : Nat) (prev : List Int), 4 ≤ prev.length →
        DecodeINSERTPSMask Imm prev = insertpsWrites Imm prev ++ [0, 1, 2, 3])
    ∧ DecodeINSERTPSMask 0 (List.replicate 4 (9 : Int))
        ≠ List.replicate 4 (9 : Int) ++ DecodeINSERTPSMask 0 [] := by
  refine ⟨?_, ?_, ?_, ?_, ?_, ?_, ?_, ?_, ?_, ?_, ?_, ?_, ?_, ?_, ?_, ?_⟩
  · intro NElts prev
    rw [DecodeMOVHLPSMask_eq, DecodeMOVHLPSMask_eq]
    simp
  · intro NElts prev
    rw [DecodeMOVLHPSMask_eq, DecodeMOVLHPSMask_eq]
    simp
  · intro VT Imm prev
    rw [DecodePALIGNRMask_eq, DecodePALIGNRMask_eq]
    simp
  · intro VT Imm prev
    simp only [DecodePSHUFMask]
    exact pshufLanes_fst_append _ _ _ _ _
  · intro VT Imm prev
    rw [DecodePSHUFHWMask_eq, DecodePSHUFHWMask_eq]
    simp
  · intro VT Imm prev
    rw [DecodePSHUFLWMask_eq, DecodePSHUFLWMask_eq]
    simp
  · intro VT Imm prev
    simp only [DecodeSHUFPMask]
    exact shufpLanes_fst_append _ _ _ _ _ _
  · intro VT prev
    rw [DecodeUNPCKHMask_eq, DecodeUNPCKHMask_eq]
    simp
  · intro VT prev
    rw [DecodeUNPCKLMask_eq, DecodeUNPCKLMask_eq]
    simp
  · intro VT Imm prev
    rw [DecodeVPERM2X128Mask_eq, DecodeVPERM2X128Mask_eq]
    by_cases hc : Imm &&& 0x88 ≠ 0
    · rw [if_pos hc, if_pos hc]
      simp
    · rw [if_neg hc, if_neg hc]
      simp
  · intro C prev
    rw [DecodePSHUFBMaskCDS_eq, DecodePSHUFBMaskCDS_eq]
    by_cases hA : C.eltBits = 8
        ∧ (C.getNumElements = 16 ∨ C.getNumElements = 32)
    · by_cases hB : ∀ i ∈ List.range C.getNumElements, pshufbCDSOk C i
      · simp [hA, hB]
      · simp [hA, hB]
    · simp [hA]
  · intro RawMask prev
    rw [DecodePSHUFBMaskRaw_eq, DecodePSHUFBMaskRaw_eq]
    by_cases hB : ∀ i ∈ List.range RawMask.length, pshufbRawOk RawMask i
    · simp [hB]
    · simp [hB]
  · intro VT Imm prev
    rw [DecodeBLENDMask_eq, DecodeBLENDMask_eq]
    simp
  · intro Imm prev
    rw [DecodeVPERMMask_eq, DecodeVPERMMask_eq]
    simp
  · intro Imm prev hlen
    rw [DecodeINSERTPSMask_eq_writes, insertpsWrites_append _ _ _ hlen]
  · decide

/-- C10 witness: the insert decoder on the dirty container `[9,9,9,9]`
writes through position 0 of the pre-existing entries and appends the
untouched identity. -/
theorem C10_witness :
    DecodeINSERTPSMask 0 (List.replicate 4 (9 : Int))
      = insertpsWrites 0 (List.replicate 4 (9 : Int)) ++ [0, 1, 2, 3]
    ∧ DecodeINSERTPSMask 0 (List.replicate 4 (9 : Int))
        ≠ List.replicate 4 (9 : Int) ++ DecodeINSERTPSMask 0 [] :=
  ⟨C10_frame_effect.2.2.2.2.2.2.2.2.2.2.2.2.2.2.1 0
    (List.replicate 4 (9 : Int)) (by decide),
   C10_frame_effect.2.2.2.2.2.2.2.2.2.2.2.2.2.2.2⟩

end X86ShuffleDecode
